import Mathlib

/-!
Verification development for the v4l2py device layer (src/v4l2py/device.py).

The Python code drives a V4L2 kernel device through ioctl/mmap calls.  We give
a shallow embedding: every kernel interaction is recorded as an `Event` in a
trace, kernel responses are supplied by explicit oracle functions, Python
exceptions become an `Err`-valued `Except`, Python `int` becomes `ℤ`/`ℕ`, and
Python `fractions.Fraction` values are modelled as exact rationals
(normalized integer pairs; the claims quantify over exact rational inputs).

The ctypes structure layouts live in `raw.py`, which is not part of the given
source; where a structure field matters (the `v4l2_fract` time-per-frame
fields) it is modelled from the spec as an exact integer field.
-/

set_option maxRecDepth 40000

namespace V4l2py

/-- The `Memory` enumeration (`V4L2_MEMORY_*`); only the constructors that matter
for the claims are modelled. -/
inductive Memory
  | MMAP
  | USERPTR
  | DMABUF
  | OVERLAY
deriving DecidableEq

/-- The `BufferType` enumeration (`V4L2_BUF_TYPE_*`), abridged. -/
inductive BufferType
  | VIDEO_CAPTURE
  | VIDEO_OUTPUT
deriving DecidableEq

/-- Python exceptions raised by `device.py`.  `osError e` is `OSError` with
`errno = e` (the value raised by a failing `fcntl.ioctl` or `mmap.mmap`);
the remaining constructors mirror the exception classes used in the source. -/
inductive Err
  | osError (errno : ℤ)
  | ioError (msg : String)
  | typeError (msg : String)
  | valueError (msg : String)
  | zeroDivisionError
  | indexError
  | assertionError
deriving DecidableEq

/-- A selection rectangle (`Rect` namedtuple / `v4l2_rect` fields). -/
structure SelRect where
  left : ℤ
  top : ℤ
  width : ℤ
  height : ℤ
deriving DecidableEq

/-- One observable kernel interaction performed by the Python code.  `ioctl`
requests are tagged with their `VIDIOC_*` request; `mmapCall`/`munmap` are the
`mmap.mmap` constructor and `mmap.close` calls; `readMMap` records the
copy-out `self.mmap[: buff.bytesused]` from a mapped slot. -/
inductive Event
  | reqbufs (count : ℕ) (memory : Memory)
  | querybuf (index : ℕ)
  | mmapCall (length : ℕ) (offset : ℕ)
  | qbuf (index : ℕ)
  | dqbuf
  | readMMap (index : ℕ) (bytes : ℕ)
  | munmap (index : ℕ)
  | streamoff (t : BufferType)
  | sSelection (rects : List SelRect)
  | queryExtCtrl
  | enumFmt (index : ℕ)
  | enumFrameintervals
deriving DecidableEq

/-- Number of `mmap.mmap` constructor calls in a trace. -/
def mmapCount : List Event → ℕ
  | [] => 0
  | Event.mmapCall _ _ :: t => mmapCount t + 1
  | _ :: t => mmapCount t

/-- Number of unmap (`mmap.close`) calls in a trace. -/
def munmapCount : List Event → ℕ
  | [] => 0
  | Event.munmap _ :: t => munmapCount t + 1
  | _ :: t => munmapCount t

/-- Kernel-side responses for the buffer-allocation ioctls used by
`Buffers._create_buffers` and `BufferMMAP.__init__`.  `reqbufs n` is the
count granted for `VIDIOC_REQBUFS` with requested count `n`; `querybuf i` is
the `(length, m.offset)` pair filled into the `v4l2_buffer` for slot `i` (or
the `OSError` the ioctl raises); `mmapRes len off` is the outcome of
`mmap.mmap(fd, len, offset=off)`; `qbufRes i` the outcome of `VIDIOC_QBUF`
for slot `i`. -/
structure BufOracle where
  reqbufs : ℕ → Except Err ℕ
  querybuf : ℕ → Except Err (ℕ × ℕ)
  mmapRes : ℕ → ℕ → Except Err Unit
  qbufRes : ℕ → Except Err Unit

/-- The state of one `BufferMMAP` object after a successful `__init__`. -/
structure BufferMMAP where
  index : ℕ
  buffer_type : BufferType
  queue : Bool
  length : ℕ
deriving DecidableEq

/-- The `BufferMMAP.__init__` (device.py:679-686): issue `VIDIOC_QUERYBUF` for
this slot, `mmap` the reported length at the reported offset, and, when the
`queue` flag is set, immediately `VIDIOC_QBUF` the slot.  Returns the trace
of kernel calls together with the constructed object or the exception. -/
def bufferMMAPInit (o : BufOracle) (index : ℕ) (bt : BufferType) (queue : Bool) :
    List Event × Except Err BufferMMAP :=
  match o.querybuf index with
  | .error e => ([Event.querybuf index], .error e)
  | .ok (len, off) =>
    match o.mmapRes len off with
    | .error e => ([Event.querybuf index, Event.mmapCall len off], .error e)
    | .ok _ =>
      if queue then
        match o.qbufRes index with
        | .error e =>
          ([Event.querybuf index, Event.mmapCall len off, Event.qbuf index], .error e)
        | .ok _ =>
          ([Event.querybuf index, Event.mmapCall len off, Event.qbuf index],
            .ok ⟨index, bt, queue, len⟩)
      else
        ([Event.querybuf index, Event.mmapCall len off], .ok ⟨index, bt, queue, len⟩)

/-- The slot-construction loop of `Buffers._create_buffers` (the list
comprehension `[BufferMMAP(...) for index in range(r.count)]`), iterating
`rem` more indices starting at `idx`: constructs slots in index order,
aborting on the first exception.  Note that on abort no cleanup of the
already-constructed slots is performed. -/
def createSlots (o : BufOracle) (bt : BufferType) (queue : Bool) :
    ℕ → ℕ → List BufferMMAP → List Event → List Event × Except Err (List BufferMMAP)
  | 0, _, acc, evs => (evs, .ok acc)
  | rem + 1, idx, acc, evs =>
    match bufferMMAPInit o idx bt queue with
    | (evsI, .error e) => (evs ++ evsI, .error e)
    | (evsI, .ok b) => createSlots o bt queue rem (idx + 1) (acc ++ [b]) (evs ++ evsI)

/-- The `Buffers._create_buffers` (device.py:738-751): reject any memory kind
other than `Memory.MMAP` before touching the kernel, issue `VIDIOC_REQBUFS`,
fail with `IOError("Not enough buffer memory")` when zero buffers are
granted, and otherwise construct one `BufferMMAP` per granted slot. -/
def createBuffers (o : BufOracle) (bt : BufferType) (buffer_size : ℕ)
    (buffer_queue : Bool) (memory : Memory) :
    List Event × Except Err (List BufferMMAP) :=
  if memory ≠ Memory.MMAP then
    ([], .error (Err.typeError ("Unsupported buffer type")))
  else
    match o.reqbufs buffer_size with
    | .error e => ([Event.reqbufs buffer_size memory], .error e)
    | .ok count =>
      if count = 0 then
        ([Event.reqbufs buffer_size memory],
          .error (Err.ioError ("Not enough buffer memory")))
      else
        createSlots o bt buffer_queue count 0 [] [Event.reqbufs buffer_size memory]

/-- The per-slot state seen by `Buffers.raw_read`: the slot's kernel index,
its auto-queue flag and the current contents of its memory mapping (a byte
sequence). -/
structure Slot where
  index : ℕ
  queue : Bool
  data : List ℕ
deriving DecidableEq

/-- The `BufferMMAP.raw_read` (device.py:698-702): copy the first
`buff.bytesused` bytes out of the slot's mapping (Python slicing clamps to
the mapping length) and, when the auto-queue flag is set, re-issue
`VIDIOC_QBUF` with the same `v4l2_buffer` (whose `index` field is the one the
dequeue reported) before returning the copied bytes. -/
def slotRawRead (s : Slot) (buffIndex bytesused : ℕ) (qbufRes : ℕ → Except Err Unit) :
    List Event × Except Err (List ℕ) :=
  let result := s.data.take bytesused
  if s.queue then
    match qbufRes buffIndex with
    | .error e => ([Event.readMMap s.index bytesused, Event.qbuf buffIndex], .error e)
    | .ok _ => ([Event.readMMap s.index bytesused, Event.qbuf buffIndex], .ok result)
  else
    ([Event.readMMap s.index bytesused], .ok result)

/-- The `Buffers.raw_read` (device.py:759-762): build a `v4l2_buffer` from slot 0,
issue `VIDIOC_DQBUF` (the kernel fills in the dequeued slot's `index` and
`bytesused`, modelled by the `dq` response), then delegate to
`BufferMMAP.raw_read` of the slot at the reported index.  An out-of-range
reported index is the Python `IndexError` of `self.buffers[buff.index]`. -/
def buffersRawRead (pool : List Slot) (dq : Except Err (ℕ × ℕ))
    (qbufRes : ℕ → Except Err Unit) : List Event × Except Err (List ℕ) :=
  match pool with
  | [] => ([], .error Err.indexError)
  | _ :: _ =>
    match dq with
    | .error e => ([Event.dqbuf], .error e)
    | .ok (i, bytesused) =>
      match pool.get? i with
      | none => ([Event.dqbuf], .error Err.indexError)
      | some s =>
        match slotRawRead s i bytesused qbufRes with
        | (evs, r) => (Event.dqbuf :: evs, r)

/-- The `VideoCapture.MAX_NR_CROP_RECTS` (device.py:481). -/
def MAX_NR_CROP_RECTS : ℕ := 8

/-- The `VideoCapture.set_selection` (device.py:612-634): reject more than
`MAX_NR_CROP_RECTS` rectangles with a `ValueError` before any kernel call;
otherwise copy every rectangle into the ioctl argument and issue exactly one
`VIDIOC_S_SELECTION` carrying them (whose kernel outcome is `selRes`). -/
def setSelection (rect_array : List SelRect) (selRes : Except Err Unit) :
    List Event × Except Err Unit :=
  if MAX_NR_CROP_RECTS < rect_array.length then
    ([], .error (Err.valueError ("Too many selection areas")))
  else
    match selRes with
    | .error e => ([Event.sSelection (rect_array.map
        (fun r => ⟨r.left, r.top, r.width, r.height⟩))], .error e)
    | .ok _ => ([Event.sSelection (rect_array.map
        (fun r => ⟨r.left, r.top, r.width, r.height⟩))], .ok ())

/-- The `VideoCapture.stop` (device.py:640-643): when the owning device's file
object is already closed, do nothing at all; otherwise issue exactly one
`VIDIOC_STREAMOFF` for the session's buffer type (with kernel outcome
`offRes`). -/
def videoCaptureStop (closed : Bool) (bt : BufferType) (offRes : Except Err Unit) :
    List Event × Except Err Unit :=
  if closed then ([], .ok ())
  else
    match offRes with
    | .error e => ([Event.streamoff bt], .error e)
    | .ok _ => ([Event.streamoff bt], .ok ())

/-! ### Re-entrant context managers (C10)

`Device`, `Buffers` and `VideoStream` all implement the same
`__enter__`/`__exit__` pair: `__enter__` increments `_context_level`,
`__exit__` decrements it and calls `close()` exactly when the counter is back
to zero (Python truthiness: `if not self._context_level`).  Each `close()` is
idempotent on the underlying resource: `Device.close` checks
`self.closed` before closing the file object, `Buffers.close` checks
`self.buffers` before unmapping the slots and setting it to `None`, and
`VideoStream.close` delegates to `Buffers.close`.  We track the context
counter, whether the underlying resource is still alive, and how many times
it has actually been released. -/

/-- A `with`-block boundary on one of the context-manager objects. -/
inductive CtxOp
  | enter
  | exit
deriving DecidableEq

/-- Observable state of one context-managed object: the `_context_level`
counter (a Python `int`, hence `ℤ`), whether the underlying resource is still
alive, and how many times the resource has been released. -/
structure CtxState where
  level : ℤ
  alive : Bool
  closes : ℕ
deriving DecidableEq

/-- The `Device.__enter__`/`__exit__` (device.py:289-296) with `Device.close`
(device.py:308-311): exit closes the file object only when the counter
returns to zero and the object is not closed yet. -/
def deviceStep (s : CtxState) : CtxOp → CtxState
  | CtxOp.enter => { s with level := s.level + 1 }
  | CtxOp.exit =>
    if s.level - 1 = 0 then
      if s.alive then ⟨s.level - 1, false, s.closes + 1⟩
      else { s with level := s.level - 1 }
    else { s with level := s.level - 1 }

/-- The `Buffers.__enter__`/`__exit__` (device.py:726-733) with `Buffers.close`
(device.py:753-757): exit unmaps the slot list (one release of the pool's
mappings) only when the counter returns to zero and `self.buffers` is not
already `None`. -/
def buffersStep (s : CtxState) : CtxOp → CtxState
  | CtxOp.enter => { s with level := s.level + 1 }
  | CtxOp.exit =>
    if s.level - 1 = 0 then
      if s.alive then ⟨s.level - 1, false, s.closes + 1⟩
      else { s with level := s.level - 1 }
    else { s with level := s.level - 1 }

/-- The `VideoStream.__enter__`/`__exit__` (device.py:783-790) with
`VideoStream.close` (device.py:799-800), which delegates to the (idempotent)
`Buffers.close`. -/
def streamStep (s : CtxState) : CtxOp → CtxState
  | CtxOp.enter => { s with level := s.level + 1 }
  | CtxOp.exit =>
    if s.level - 1 = 0 then
      if s.alive then ⟨s.level - 1, false, s.closes + 1⟩
      else { s with level := s.level - 1 }
    else { s with level := s.level - 1 }

/-- Initial state: freshly constructed object, resource alive. -/
def ctxInit : CtxState := ⟨0, true, 0⟩

def runDevice (ops : List CtxOp) : CtxState := ops.foldl deviceStep ctxInit

def runBuffers (ops : List CtxOp) : CtxState := ops.foldl buffersStep ctxInit

def runStream (ops : List CtxOp) : CtxState := ops.foldl streamStep ctxInit

/-- Net nesting contribution of one `with`-block boundary. -/
def ctxVal : CtxOp → ℤ
  | CtxOp.enter => 1
  | CtxOp.exit => -1

/-- Nesting balance of a sequence of `with`-block boundaries. -/
def ctxBalance (ops : List CtxOp) : ℤ := (ops.map ctxVal).sum

/-- A sequence of properly nested `with`-blocks over a single object: it is
nonempty, balanced overall, and every proper prefix is strictly inside the
outermost block. -/
def NestedCtx (ops : List CtxOp) : Prop :=
  ops ≠ [] ∧ ctxBalance ops = 0 ∧
    ∀ k, 0 < k → k < ops.length → 0 < ctxBalance (ops.take k)

/-! ### Enumeration loops (C4)

Three driver-enumeration loops appear in the source: the image-format loop in
`read_info` (device.py:196-206), the frame-interval loop in
`frame_sizes.get_frame_intervals` (device.py:106-119), both of which iterate
`for index in range(128)`, and the control loop in
`Device._get_device_controls` (device.py:320-339), which is a `while True`
loop.  Each ioctl response is supplied by an oracle indexed by the iteration
number; `errno.EINVAL` is 22. -/

/-- Kernel response to one `VIDIOC_ENUM_FMT` ioctl: success (with whether the
reported `pixelformat` is a known `PixelFormat` member) or an `OSError`. -/
inductive FmtResp
  | ok (known : Bool)
  | err (errno : ℤ)
deriving DecidableEq

/-- The `for index in range(128)` body of the format-enumeration loop in
`read_info`: `EINVAL` breaks the loop (normal end), any other `OSError` is
re-raised, an unknown pixel format is skipped (`continue`), and a known one
is appended.  Returns the number of ioctl calls made and the number of
formats collected (or the re-raised error). -/
def enumFmtLoop (resp : ℕ → FmtResp) : ℕ → ℕ → ℕ → ℕ → ℕ × Except Err ℕ
  | 0, _, calls, acc => (calls, .ok acc)
  | rem + 1, idx, calls, acc =>
    match resp idx with
    | .err e => if e = 22 then (calls + 1, .ok acc) else (calls + 1, .error (Err.osError e))
    | .ok known => enumFmtLoop resp rem (idx + 1) (calls + 1) (if known then acc + 1 else acc)

/-- The image-format enumeration pass of `read_info` for one stream type. -/
def readInfoFormats (resp : ℕ → FmtResp) : ℕ × Except Err ℕ :=
  enumFmtLoop resp 128 0 0 0

/-- Kernel response to one `VIDIOC_ENUM_FRAMEINTERVALS` ioctl: success (with
whether the reported interval type is a known `FrameIntervalType` member) or
an `OSError`. -/
inductive IvalResp
  | ok (knownType : Bool)
  | err (errno : ℤ)
deriving DecidableEq

/-- The `for index in range(128)` body of `get_frame_intervals` inside
`frame_sizes`: `EINVAL` breaks the loop, any other `OSError` is re-raised,
an unrecognized interval type breaks (the `ValueError` handler), and a
recognized one appends a `FrameType`. -/
def enumIvalLoop (resp : ℕ → IvalResp) : ℕ → ℕ → ℕ → ℕ → ℕ × Except Err ℕ
  | 0, _, calls, acc => (calls, .ok acc)
  | rem + 1, idx, calls, acc =>
    match resp idx with
    | .err e => if e = 22 then (calls + 1, .ok acc) else (calls + 1, .error (Err.osError e))
    | .ok knownType =>
      if knownType then enumIvalLoop resp rem (idx + 1) (calls + 1) (acc + 1)
      else (calls + 1, .ok acc)

/-- The frame-interval enumeration loop for one (format, size) pair. -/
def frameIntervalsLoop (resp : ℕ → IvalResp) : ℕ × Except Err ℕ :=
  enumIvalLoop resp 128 0 0 0

/-- Kernel response to one `VIDIOC_QUERY_EXT_CTRL` ioctl: success (with the
control's disabled flag and whether it is a control class) or an `OSError`. -/
inductive CtrlResp
  | ok (disabled : Bool) (isClass : Bool)
  | err (errno : ℤ)
deriving DecidableEq

/-- The `while True` body of `Device._get_device_controls`: on `OSError` the
code asserts `errno == EINVAL` and breaks (a non-EINVAL error becomes an
`AssertionError`); on success it appends the control unless it is disabled
or a control class, and loops again with no iteration bound.  The loop is
modelled with explicit fuel: `none` means the fuel was exhausted with the
loop still running (the source loop has no bound of its own). -/
def gdcLoop (resp : ℕ → CtrlResp) : ℕ → ℕ → ℕ → Option (ℕ × Except Err ℕ)
  | 0, _, _ => none
  | fuel + 1, calls, acc =>
    match resp calls with
    | .err e =>
      if e = 22 then some (calls + 1, .ok acc) else some (calls + 1, .error Err.assertionError)
    | .ok disabled isClass =>
      gdcLoop resp fuel (calls + 1) (if disabled = false ∧ isClass = false then acc + 1 else acc)

/-- The `Device._get_device_controls` run with the given fuel. -/
def getDeviceControls (resp : ℕ → CtrlResp) (fuel : ℕ) : Option (ℕ × Except Err ℕ) :=
  gdcLoop resp fuel 0 0

/-! ### Frame-rate configuration (C5, C6)

`VideoCapture.set_fps` (device.py:534-546) and `VideoCapture.get_fps`
(device.py:548-559).  Python `fractions.Fraction` values are modelled as
pairs `(numerator, denominator) : ℤ × ℤ` that the `Fraction` constructor
keeps normalized (positive denominator, coprime); the claims' floating-point
`fps` arguments are modelled as exact rationals.  `Fraction.limit_denominator`
is translated from CPython's `fractions.py`.  The `v4l2_fract` struct fields
written by `set_fps` live in `raw.py`, which is not part of the given source;
modelled from the spec ("frame rate is exchanged as numerator/denominator
rational pairs") as exact integer fields. -/

/-- A Python `fractions.Fraction` value: a numerator/denominator pair.  All
pairs produced by `pyFrac` are normalized. -/
abbrev PyFrac := ℤ × ℤ

/-- The `Fraction(n, d)` constructor's normalization: divide both parts by
their gcd, with the sign carried by the numerator (denominator positive).
`Fraction(n, 0)` raises `ZeroDivisionError` in Python; here the pair is
returned unnormalized and every use is guarded. -/
def pyFrac (n d : ℤ) : PyFrac :=
  let g : ℤ := if d < 0 then -(Int.gcd n d : ℤ) else (Int.gcd n d : ℤ)
  if d = 0 then (n, d) else (n / g, d / g)

/-- The rational value of a fraction pair. -/
def fracVal (x : PyFrac) : ℚ := (x.1 : ℚ) / (x.2 : ℚ)

/-- The `abs(a - b) <= abs(c - d)` for fraction pairs with positive denominators
(cross-multiplied comparison; all comparisons in `limit_denominator` happen
on such pairs). -/
def absSubLe (a b c d : PyFrac) : Bool :=
  |a.1 * b.2 - b.1 * a.2| * (c.2 * d.2) ≤ |c.1 * d.2 - d.1 * c.2| * (a.2 * b.2)

/-- The convergent-building `while True` loop of
`Fraction.limit_denominator`: state `(p0, q0, p1, q1)` plus the Euclidean
pair `(n, d)`.  One step computes `a = n // d` and `q2 = q0 + a * q1`,
breaks when `q2 > max_denominator` (returning the current state), and
otherwise rotates the state.  `d = 0` would be Python's `ZeroDivisionError`
on `n // d`; both it and fuel exhaustion yield `none` (the main theorems
show neither occurs on inputs reaching the loop).  For the positive `d` in
use, Python's floor division and modulus agree with `Int.ediv`/`Int.emod`. -/
def ldLoop (maxDen : ℤ) : ℕ → ℤ → ℤ → ℤ → ℤ → ℤ → ℕ → Option (ℤ × ℤ × ℤ × ℤ × ℤ × ℕ)
  | 0, _, _, _, _, _, _ => none
  | _ + 1, _, _, _, _, _, 0 => none
  | fuel + 1, p0, q0, p1, q1, n, d + 1 =>
    let a : ℤ := n / ((d : ℤ) + 1)
    let q2 : ℤ := q0 + a * q1
    if maxDen < q2 then some (p0, q0, p1, q1, n, d + 1)
    else ldLoop maxDen fuel p1 q1 (p0 + a * p1) q2 ((d : ℤ) + 1) (n % ((d : ℤ) + 1)).toNat

/-- The `Fraction.limit_denominator(max_denominator)` (CPython `fractions.py`),
for a normalized input pair `x` with positive denominator: raise
`ValueError` when the bound is below 1; return `x` unchanged when its
denominator already fits; otherwise run the convergent loop and return the
closer of the last convergent `p1/q1` and the best upper semiconvergent
`(p0 + k*p1)/(q0 + k*q1)`, ties going to the convergent.  The `none` cases
of the loop and the zero-denominator guards surface as
`ZeroDivisionError`. -/
def limitDenominator (x : PyFrac) (max_denominator : ℤ) : Except Err PyFrac :=
  if max_denominator < 1 then
    .error (Err.valueError ("max_denominator should be at least 1"))
  else if x.2 ≤ max_denominator then .ok x
  else
    match ldLoop max_denominator (x.2.toNat + 1) 0 1 1 0 x.1 x.2.toNat with
    | none => .error Err.zeroDivisionError
    | some (p0, q0, p1, q1, _, _) =>
      if q1 = 0 then .error Err.zeroDivisionError
      else
        let k : ℤ := (max_denominator - q0) / q1
        if q0 + k * q1 = 0 then .error Err.zeroDivisionError
        else
          let bound1 : PyFrac := pyFrac (p0 + k * p1) (q0 + k * q1)
          let bound2 : PyFrac := pyFrac p1 q1
          if absSubLe bound2 x bound1 x then .ok bound2 else .ok bound1

/-- The `v4l2_fract` time-per-frame field written by `set_fps`.  Modelled
from the spec: `raw.py` (the ctypes struct layouts) is not part of the given
source; the spec describes the wire value as a numerator/denominator
rational pair, so the fields are exact integers here. -/
structure TimePerFrame where
  numerator : ℤ
  denominator : ℤ
deriving DecidableEq

/-- Python `int(q)` (truncation toward zero) for an exact rational. -/
def pyInt (q : ℚ) : ℤ := q.num.tdiv (q.den : ℤ)

/-- The denominator ceiling `int(min(2**32, 2**32/fps))` computed by
`set_fps` (device.py:537), for an exact rational `fps ≠ 0`: `2**32/fps` as
an exact (normalized) fraction, the minimum against `2**32`, then
truncation. -/
def setFpsMaxDen (fps : ℚ) : ℤ :=
  let a : PyFrac := pyFrac ((2 : ℤ) ^ 32 * (fps.den : ℤ)) fps.num
  if a.1 < (2 : ℤ) ^ 32 * a.2 then a.1.tdiv a.2 else (2 : ℤ) ^ 32

/-- The `VideoCapture.set_fps` (device.py:534-546): compute the denominator
ceiling, replace `fps` by `Fraction(fps).limit_denominator(max_den)`, and
write the inverse into the time-per-frame field: the field's numerator is
the fraction's denominator and the field's denominator is the fraction's
numerator.  `fps = 0` is Python's `ZeroDivisionError` on `2**32/fps`. -/
def setFps (fps : ℚ) : Except Err TimePerFrame :=
  if fps = 0 then .error Err.zeroDivisionError
  else
    match limitDenominator (fps.num, (fps.den : ℤ)) (setFpsMaxDen fps) with
    | .error e => .error e
    | .ok r => .ok ⟨r.2, r.1⟩

/-- The `VideoCapture.get_fps` (device.py:548-559): read the time-per-frame
field and return `denominator / numerator`; a zero numerator is Python's
`ZeroDivisionError`. -/
def getFps (t : TimePerFrame) : Except Err ℚ :=
  if t.numerator = 0 then .error Err.zeroDivisionError
  else .ok ((t.denominator : ℚ) / (t.numerator : ℚ))

/-! ### Concrete oracles used by witnesses and counterexamples -/

/-- An always-succeeding buffer oracle granting 2 slots of 4096 bytes. -/
def okOracle : BufOracle :=
  ⟨fun _ => .ok 2, fun i => .ok (4096, 4096 * i), fun _ _ => .ok (), fun _ => .ok ()⟩

/-- A buffer oracle granting 2 slots whose second `VIDIOC_QUERYBUF` fails
with `EINVAL`, while slot 0 is created (and mapped) successfully. -/
def failSecondOracle : BufOracle :=
  ⟨fun _ => .ok 2,
   fun i => if i = 0 then .ok (4096, 0) else .error (Err.osError 22),
   fun _ _ => .ok (), fun _ => .ok ()⟩

/-- A buffer oracle granting zero slots. -/
def zeroOracle : BufOracle :=
  ⟨fun _ => .ok 0, fun i => .ok (4096, 4096 * i), fun _ _ => .ok (), fun _ => .ok ()⟩

/-- A control-enumeration driver that always reports one more (enabled,
non-class) control and never returns `EINVAL`. -/
def alwaysOkCtrl : ℕ → CtrlResp := fun _ => CtrlResp.ok false false

/-- A successful `VIDIOC_ENUM_FMT` response. -/
def IsOkF (r : FmtResp) : Prop := ∃ b, r = FmtResp.ok b

/-- A successful `VIDIOC_ENUM_FRAMEINTERVALS` response. -/
def IsOkI (r : IvalResp) : Prop := ∃ b, r = IvalResp.ok b

/-- A successful `VIDIOC_QUERY_EXT_CTRL` response. -/
def IsOkC (r : CtrlResp) : Prop := ∃ b c, r = CtrlResp.ok b c

/-- A format-enumeration driver answering success twice, then `EINVAL`. -/
def fmtRespW : ℕ → FmtResp := fun j => if j < 2 then FmtResp.ok true else FmtResp.err 22

/-- A frame-interval driver answering success twice, then `EINVAL`. -/
def ivalRespW : ℕ → IvalResp := fun j => if j < 2 then IvalResp.ok true else IvalResp.err 22

/-- A control driver answering success twice, then `EINVAL`. -/
def ctrlRespW : ℕ → CtrlResp :=
  fun j => if j < 2 then CtrlResp.ok false false else CtrlResp.err 22

/-- Success of every kernel call `BufferMMAP.__init__` makes for slot `i`. -/
def SlotOk (o : BufOracle) (q : Bool) (i : ℕ) : Prop :=
  ∃ len off, o.querybuf i = .ok (len, off) ∧ o.mmapRes len off = .ok () ∧
    (q = true → o.qbufRes i = .ok ())

/-- The `BufferMMAP.__init__` for slot `j` raises `e`, either at the
`VIDIOC_QUERYBUF` ioctl or at the `mmap` call. -/
def SlotFails (o : BufOracle) (j : ℕ) (e : Err) : Prop :=
  o.querybuf j = .error e ∨
    ∃ len off, o.querybuf j = .ok (len, off) ∧ o.mmapRes len off = .error e

/-- The exact rational `30 + 2⁻³¹ = 64424509441 / 2147483648`, used as a
concrete `fps` input. -/
def fps31 : ℚ := ⟨64424509441, 2147483648, by norm_num, by decide⟩

/-- Invariant carried through the `limit_denominator` convergent loop for
input value `x` (in lowest terms) and denominator ceiling `D`: the state
encodes `x` exactly via the continuant identities, the determinant of
consecutive convergents is `±1`, and the recorded continuant denominators
stay within the ceiling. -/
structure LDInv (x : ℚ) (D : ℤ) (p0 q0 p1 q1 n : ℤ) (d : ℕ) : Prop where
  hp0 : 0 ≤ p0
  hp1 : 0 ≤ p1
  hq0 : 0 ≤ q0
  hq1 : 0 ≤ q1
  hq0D : q0 ≤ D
  hq1D : q1 ≤ D
  hn : 1 ≤ n
  hnum : p1 * n + p0 * (d : ℤ) = x.num
  hden : q1 * n + q0 * (d : ℤ) = (x.den : ℤ)
  hdet : p1 * q0 - p0 * q1 = 1 ∨ p1 * q0 - p0 * q1 = -1

deriving instance DecidableEq for Except

/-! ## Theorems -/

/-- Counting `mmap` constructor calls distributes over trace concatenation. -/
theorem mmapCount_append (a b : List Event) :
    mmapCount (a ++ b) = mmapCount a + mmapCount b := by
  induction a with
  | nil => simp [mmapCount]
  | cons e t ih =>
    cases e <;> simp [mmapCount, ih, Nat.add_right_comm]

/-- Counting unmap calls distributes over trace concatenation. -/
theorem munmapCount_append (a b : List Event) :
    munmapCount (a ++ b) = munmapCount a + munmapCount b := by
  induction a with
  | nil => simp [munmapCount]
  | cons e t ih =>
    cases e <;> simp [munmapCount, ih, Nat.add_right_comm]

/-- Claim C7: requesting any memory kind other than memory-mapped makes
buffer-pool creation fail (the `TypeError` the source raises for an
unsupported buffer kind, the spec's `UnsupportedError`) with an empty kernel
trace: no ioctl of any kind is issued before the error. -/
theorem c7_unsupported_memory (o : BufOracle) (bt : BufferType) (n : ℕ) (q : Bool)
    (m : Memory) (hm : m ≠ Memory.MMAP) :
    createBuffers o bt n q m = ([], .error (Err.typeError ("Unsupported buffer type"))) := by
  simp [createBuffers, hm]

/-- Witness for C7 at the user-pointer memory kind. -/
theorem c7_unsupported_memory_witness :
    Memory.USERPTR ≠ Memory.MMAP ∧
      createBuffers okOracle BufferType.VIDEO_CAPTURE 4 true Memory.USERPTR =
        ([], .error (Err.typeError ("Unsupported buffer type"))) :=
  ⟨by decide,
   c7_unsupported_memory okOracle BufferType.VIDEO_CAPTURE 4 true Memory.USERPTR (by decide)⟩

/-- Claim C9: `stop()` on a capture whose device handle is already closed
raises nothing and issues no ioctl at all; on an open device it issues
exactly one `VIDIOC_STREAMOFF` for the session's buffer type (propagating
that ioctl's outcome). -/
theorem c9_stop (bt : BufferType) (offRes : Except Err Unit) :
    videoCaptureStop true bt offRes = ([], .ok ()) ∧
      videoCaptureStop false bt offRes = ([Event.streamoff bt], offRes) := by
  refine ⟨rfl, ?_⟩
  cases offRes with
  | error e => rfl
  | ok v => cases v; rfl

/-- Claim C8: `set_selection` with more than `MAX_NR_CROP_RECTS = 8`
rectangles fails with the source's `ValueError` (the spec's
`ValidationError`) and an empty kernel trace; with at most 8 rectangles it
issues exactly one `VIDIOC_S_SELECTION` ioctl carrying all the given
rectangles. -/
theorem c8_set_selection (rects : List SelRect) (selRes : Except Err Unit) :
    (MAX_NR_CROP_RECTS < rects.length →
      setSelection rects selRes = ([], .error (Err.valueError ("Too many selection areas")))) ∧
    (rects.length ≤ MAX_NR_CROP_RECTS →
      setSelection rects selRes = ([Event.sSelection rects], selRes)) := by
  constructor
  · intro h
    simp [setSelection, h]
  · intro h
    have hc : ¬ MAX_NR_CROP_RECTS < rects.length := Nat.not_lt.mpr h
    have hmap : rects.map (fun r => (⟨r.left, r.top, r.width, r.height⟩ : SelRect)) = rects := by
      simp
    cases selRes with
    | error e => simp [setSelection, hc, hmap]
    | ok v => cases v; simp [setSelection, hc, hmap]

/-- Witness for C8: nine rectangles are rejected with no kernel call, two
rectangles go through in a single ioctl. -/
theorem c8_set_selection_witness :
    setSelection (List.replicate 9 (⟨0, 0, 4, 4⟩ : SelRect)) (.ok ()) =
      ([], .error (Err.valueError ("Too many selection areas"))) ∧
    setSelection [(⟨0, 0, 4, 4⟩ : SelRect), ⟨1, 1, 2, 2⟩] (.ok ()) =
      ([Event.sSelection [⟨0, 0, 4, 4⟩, ⟨1, 1, 2, 2⟩]], .ok ()) :=
  ⟨(c8_set_selection (List.replicate 9 ⟨0, 0, 4, 4⟩) (.ok ())).1 (by decide),
   (c8_set_selection [⟨0, 0, 4, 4⟩, ⟨1, 1, 2, 2⟩] (.ok ())).2 (by decide)⟩

/-- When every kernel call for slot `i` succeeds, `BufferMMAP.__init__`
returns a slot object carrying index `i`, after exactly one `mmap` call and
no unmapping. -/
theorem slotInit_ok (o : BufOracle) (bt : BufferType) (q : Bool) (i : ℕ)
    (h : SlotOk o q i) :
    ∃ evsI len, bufferMMAPInit o i bt q = (evsI, .ok ⟨i, bt, q, len⟩) ∧
      mmapCount evsI = 1 ∧ munmapCount evsI = 0 := by
  obtain ⟨len, off, hq, hm, hqb⟩ := h
  cases q with
  | true =>
    refine ⟨[Event.querybuf i, Event.mmapCall len off, Event.qbuf i], len, ?_, rfl, rfl⟩
    simp [bufferMMAPInit, hq, hm, hqb rfl]
  | false =>
    refine ⟨[Event.querybuf i, Event.mmapCall len off], len, ?_, rfl, rfl⟩
    simp [bufferMMAPInit, hq, hm]

/-- When slot `j`'s construction raises (at `VIDIOC_QUERYBUF` or at the
`mmap` call), `BufferMMAP.__init__` propagates that error and performs no
unmapping. -/
theorem slotInit_fail (o : BufOracle) (bt : BufferType) (q : Bool) (j : ℕ) (e : Err)
    (h : SlotFails o j e) :
    ∃ evsI, bufferMMAPInit o j bt q = (evsI, .error e) ∧ munmapCount evsI = 0 := by
  rcases h with hq | ⟨len, off, hq, hm⟩
  · exact ⟨[Event.querybuf j], by simp [bufferMMAPInit, hq], rfl⟩
  · exact ⟨[Event.querybuf j, Event.mmapCall len off], by simp [bufferMMAPInit, hq, hm], rfl⟩

/-- The slot-construction loop on an all-success range: returns one slot per
index, in index order. -/
theorem createSlots_ok (o : BufOracle) (bt : BufferType) (q : Bool) :
    ∀ (rem idx : ℕ) (acc : List BufferMMAP) (evs : List Event),
      (∀ i, idx ≤ i → i < idx + rem → SlotOk o q i) →
      ∃ evs2 slots, createSlots o bt q rem idx acc evs = (evs2, .ok (acc ++ slots)) ∧
        slots.map (fun b => b.index) = List.range' idx rem := by
  intro rem
  induction rem with
  | zero => exact fun idx acc evs _ => ⟨evs, [], by simp [createSlots], by simp⟩
  | succ rem ih =>
    intro idx acc evs h
    obtain ⟨evsI, len, hinit, -, -⟩ :=
      slotInit_ok o bt q idx (h idx le_rfl (by omega))
    obtain ⟨evs2, slots, hrec, hmap⟩ :=
      ih (idx + 1) (acc ++ [⟨idx, bt, q, len⟩]) (evs ++ evsI)
        (fun i h1 h2 => h i (by omega) (by omega))
    refine ⟨evs2, ⟨idx, bt, q, len⟩ :: slots, ?_, ?_⟩
    · simp only [createSlots, hinit, hrec]
      simp
    · simp [hmap, List.range'_succ]

/-- The slot-construction loop when slot `j` fails after an all-success
prefix: the loop aborts with slot `j`'s error, never unmaps anything, and
has performed (at least) one `mmap` call per slot created before `j`. -/
theorem createSlots_fail (o : BufOracle) (bt : BufferType) (q : Bool) (j : ℕ) (e : Err)
    (hok : ∀ i, i < j → SlotOk o q i) (hfail : SlotFails o j e) :
    ∀ (rem idx : ℕ) (acc : List BufferMMAP) (evs : List Event),
      idx ≤ j → j < idx + rem →
      ∃ evs2, createSlots o bt q rem idx acc evs = (evs2, .error e) ∧
        munmapCount evs2 = munmapCount evs ∧
        mmapCount evs + (j - idx) ≤ mmapCount evs2 := by
  intro rem
  induction rem with
  | zero => omega
  | succ rem ih =>
    intro idx acc evs hij hjr
    rcases eq_or_lt_of_le hij with rfl | hlt
    · obtain ⟨evsI, hinit, hmun⟩ := slotInit_fail o bt q idx e hfail
      refine ⟨evs ++ evsI, by simp only [createSlots, hinit], ?_, ?_⟩
      · simp [munmapCount_append, hmun]
      · simp [mmapCount_append]
    · obtain ⟨evsI, len, hinit, hmm, -⟩ := slotInit_ok o bt q idx (hok idx hlt)
      obtain ⟨evs2, hrec, hmun, hmm2⟩ :=
        ih (idx + 1) (acc ++ [⟨idx, bt, q, len⟩]) (evs ++ evsI) hlt (by omega)
      refine ⟨evs2, by simp only [createSlots, hinit, hrec], ?_, ?_⟩
      · rw [hmun, munmapCount_append]
        have : munmapCount evsI = 0 := by
          obtain ⟨evsI', len', hinit', -, h0⟩ := slotInit_ok o bt q idx (hok idx hlt)
          rw [hinit'] at hinit
          cases hinit
          exact h0
        omega
      · rw [mmapCount_append, hmm] at hmm2
        omega

/-- Claim C3: when the kernel grants `M` slots with `1 ≤ M ≤ N` and every
per-slot kernel call succeeds, the pool holds exactly `M` slots whose index
sequence is `0, 1, ..., M-1`; when the kernel grants zero slots, creation
fails with `IOError("Not enough buffer memory")` after the single
`VIDIOC_REQBUFS` call, creating no slot and mapping nothing. -/
theorem c3_create (o : BufOracle) (bt : BufferType) (n M : ℕ) (q : Bool)
    (hM : o.reqbufs n = .ok M) (_hMn : M ≤ n) :
    (1 ≤ M → (∀ i, i < M → SlotOk o q i) →
      ∃ slots, (createBuffers o bt n q Memory.MMAP).2 = .ok slots ∧
        slots.map (fun b => b.index) = List.range M) ∧
    (M = 0 → createBuffers o bt n q Memory.MMAP =
      ([Event.reqbufs n Memory.MMAP], .error (Err.ioError ("Not enough buffer memory")))) := by
  constructor
  · intro h1 hok
    obtain ⟨evs2, slots, hrun, hmap⟩ :=
      createSlots_ok o bt q M 0 [] [Event.reqbufs n Memory.MMAP]
        (fun i _ h2 => hok i (by omega))
    refine ⟨slots, ?_, by rw [hmap, List.range_eq_range']⟩
    simp only [createBuffers, hM]
    simp only [ne_eq, not_true_eq_false, if_false, if_neg (by omega : ¬ M = 0)]
    rw [hrun]
    simp
  · intro h0
    subst h0
    simp [createBuffers, hM]

/-- Witness for C3: a kernel granting 2 of 3 requested slots yields slots
indexed `[0, 1]`; a kernel granting 0 slots yields the allocation error. -/
theorem c3_create_witness :
    okOracle.reqbufs 3 = .ok 2 ∧
      (∃ slots, (createBuffers okOracle BufferType.VIDEO_CAPTURE 3 true Memory.MMAP).2 =
          .ok slots ∧ slots.map (fun b => b.index) = List.range 2) ∧
      createBuffers zeroOracle BufferType.VIDEO_CAPTURE 3 true Memory.MMAP =
        ([Event.reqbufs 3 Memory.MMAP], .error (Err.ioError ("Not enough buffer memory"))) :=
  ⟨rfl,
   (c3_create okOracle BufferType.VIDEO_CAPTURE 3 2 true rfl (by decide)).1 (by decide)
     (fun i _ => ⟨4096, 4096 * i, rfl, rfl, fun _ => rfl⟩),
   (c3_create zeroOracle BufferType.VIDEO_CAPTURE 3 0 true rfl (by decide)).2 rfl⟩

/-- Counterexample to claim C1 as stated: with a kernel granting 2 slots
whose second `VIDIOC_QUERYBUF` raises `EINVAL`, pool creation aborts with
that error as claimed, but the claim additionally requires the mapping of
the already-created slot 0 to be unmapped (a trace whose unmap calls match
its `mmap` calls); instead the trace holds one `mmap` call and no unmap
call — the mapping is left behind. -/
theorem c1_counterexample :
    (createBuffers failSecondOracle BufferType.VIDEO_CAPTURE 2 true Memory.MMAP).2 =
        .error (Err.osError 22) ∧
      mmapCount (createBuffers failSecondOracle BufferType.VIDEO_CAPTURE 2 true
        Memory.MMAP).1 = 1 ∧
      ¬ munmapCount (createBuffers failSecondOracle BufferType.VIDEO_CAPTURE 2 true
          Memory.MMAP).1 =
        mmapCount (createBuffers failSecondOracle BufferType.VIDEO_CAPTURE 2 true
          Memory.MMAP).1 := by
  decide

/-- Claim C1 as amended: when constructing slot `j` fails (at
`VIDIOC_QUERYBUF` or at the `mmap` call) after slots `0..j-1` were created
successfully, pool creation aborts with that error, but the mappings of the
already-created slots are not unmapped: the creation trace contains no unmap
call at all (their reclamation is left to garbage collection of the
abandoned slot objects), while at least the `j` established `mmap` calls are
in the trace. -/
theorem c1_no_cleanup (o : BufOracle) (bt : BufferType) (n M j : ℕ) (q : Bool) (e : Err)
    (hM : o.reqbufs n = .ok M) (hj : j < M)
    (hok : ∀ i, i < j → SlotOk o q i) (hfail : SlotFails o j e) :
    (createBuffers o bt n q Memory.MMAP).2 = .error e ∧
      munmapCount (createBuffers o bt n q Memory.MMAP).1 = 0 ∧
      j ≤ mmapCount (createBuffers o bt n q Memory.MMAP).1 := by
  obtain ⟨evs2, hrun, hmun, hmm⟩ :=
    createSlots_fail o bt q j e hok hfail M 0 [] [Event.reqbufs n Memory.MMAP]
      (by omega) (by omega)
  have hcb : createBuffers o bt n q Memory.MMAP = (evs2, .error e) := by
    simp only [createBuffers, hM]
    simp only [ne_eq, not_true_eq_false, if_false, if_neg (by omega : ¬ M = 0)]
    exact hrun
  rw [hcb]
  refine ⟨rfl, ?_, ?_⟩
  · simpa [munmapCount] using hmun
  · simpa [mmapCount] using hmm

/-- Witness for the amended C1 at the concrete failing oracle: slot 1's
query fails with `EINVAL`; creation aborts with it, slot 0's mapping was
established and nothing is ever unmapped. -/
theorem c1_no_cleanup_witness :
    (createBuffers failSecondOracle BufferType.VIDEO_CAPTURE 2 true Memory.MMAP).2 =
        .error (Err.osError 22) ∧
      munmapCount (createBuffers failSecondOracle BufferType.VIDEO_CAPTURE 2 true
        Memory.MMAP).1 = 0 ∧
      1 ≤ mmapCount (createBuffers failSecondOracle BufferType.VIDEO_CAPTURE 2 true
        Memory.MMAP).1 :=
  c1_no_cleanup failSecondOracle BufferType.VIDEO_CAPTURE 2 2 1 true (Err.osError 22)
    rfl (by decide)
    (fun i hi => ⟨4096, 0, by interval_cases i; rfl, rfl, fun _ => rfl⟩)
    (Or.inl rfl)

/-- Claim C2: a dequeue in auto-queue mode issues exactly one `VIDIOC_DQBUF`,
copies out the first `bytesused` bytes of the mapping of the slot whose
index the dequeue reported, and only then issues one `VIDIOC_QBUF` for that
same slot, before the copied bytes are returned. -/
theorem c2_raw_read (pool : List Slot) (s : Slot) (i b : ℕ)
    (qres : ℕ → Except Err Unit)
    (hne : pool ≠ []) (hs : pool.get? i = some s) (hsi : s.index = i)
    (hq : s.queue = true) (hqb : qres i = .ok ()) :
    buffersRawRead pool (.ok (i, b)) qres =
      ([Event.dqbuf, Event.readMMap i b, Event.qbuf i], .ok (s.data.take b)) := by
  cases pool with
  | nil => exact absurd rfl hne
  | cons s0 rest =>
    simp only [buffersRawRead, hs, slotRawRead, hq, hqb, hsi]
    rfl

/-- Witness for C2: a one-slot pool whose dequeue reports slot 0 with 2
valid bytes. -/
theorem c2_raw_read_witness :
    buffersRawRead [⟨0, true, [10, 20, 30]⟩] (.ok (0, 2)) (fun _ => .ok ()) =
      ([Event.dqbuf, Event.readMMap 0 2, Event.qbuf 0], .ok [10, 20]) :=
  c2_raw_read [⟨0, true, [10, 20, 30]⟩] ⟨0, true, [10, 20, 30]⟩ 0 2 (fun _ => .ok ())
    (by decide) rfl rfl rfl rfl

/-- The format-enumeration loop performs at most one ioctl per remaining
index. -/
theorem enumFmtLoop_calls_le (resp : ℕ → FmtResp) :
    ∀ (rem : ℕ), ∀ (idx calls acc : ℕ),
      (enumFmtLoop resp rem idx calls acc).1 ≤ calls + rem := by
  intro rem
  induction rem with
  | zero => intro idx calls acc; simp [enumFmtLoop]
  | succ rem ih =>
    intro idx calls acc
    simp only [enumFmtLoop]
    cases hr : resp idx with
    | err e =>
      by_cases h22 : e = 22 <;> simp [h22]
    | ok known =>
      have := ih (idx + 1) (calls + 1) (if known then acc + 1 else acc)
      simpa using le_trans this (by omega)

/-- The frame-interval loop performs at most one ioctl per remaining
index. -/
theorem enumIvalLoop_calls_le (resp : ℕ → IvalResp) :
    ∀ (rem : ℕ), ∀ (idx calls acc : ℕ),
      (enumIvalLoop resp rem idx calls acc).1 ≤ calls + rem := by
  intro rem
  induction rem with
  | zero => intro idx calls acc; simp [enumIvalLoop]
  | succ rem ih =>
    intro idx calls acc
    simp only [enumIvalLoop]
    cases hr : resp idx with
    | err e =>
      by_cases h22 : e = 22 <;> simp [h22]
    | ok known =>
      cases known with
      | true =>
        have := ih (idx + 1) (calls + 1) (acc + 1)
        simpa using le_trans this (by omega)
      | false => simp

/-- After `n` successful answers, an `EINVAL` answer ends the format loop
normally: the result is a success after exactly `n + 1` ioctl calls. -/
theorem enumFmtLoop_einval (resp : ℕ → FmtResp) :
    ∀ (n rem idx calls acc : ℕ), n < rem →
      (∀ j, j < n → IsOkF (resp (idx + j))) → resp (idx + n) = FmtResp.err 22 →
      ∃ m, enumFmtLoop resp rem idx calls acc = (calls + n + 1, .ok m) := by
  intro n
  induction n with
  | zero =>
    intro rem idx calls acc hr _ he
    obtain ⟨rem, rfl⟩ : ∃ r, rem = r + 1 := ⟨rem - 1, by omega⟩
    refine ⟨acc, ?_⟩
    simp only [enumFmtLoop]
    rw [show idx + 0 = idx from rfl] at he
    rw [he]
    simp
  | succ n ih =>
    intro rem idx calls acc hr hok he
    obtain ⟨rem, rfl⟩ : ∃ r, rem = r + 1 := ⟨rem - 1, by omega⟩
    obtain ⟨b, hb⟩ := hok 0 (by omega)
    rw [show idx + 0 = idx from rfl] at hb
    obtain ⟨m, hm⟩ := ih rem (idx + 1) (calls + 1) (if b then acc + 1 else acc) (by omega)
      (fun j hj => by
        have h2 := hok (j + 1) (by omega)
        rwa [show idx + (j + 1) = idx + 1 + j from by omega] at h2)
      (by rwa [show idx + 1 + n = idx + (n + 1) from by omega])
    refine ⟨m, ?_⟩
    simp only [enumFmtLoop, hb]
    rw [show calls + (n + 1) + 1 = calls + 1 + n + 1 from by omega]
    exact hm

/-- After `n` recognized answers, an `EINVAL` answer ends the frame-interval
loop normally: the result is a success after exactly `n + 1` ioctl calls. -/
theorem enumIvalLoop_einval (resp : ℕ → IvalResp) :
    ∀ (n rem idx calls acc : ℕ), n < rem →
      (∀ j, j < n → resp (idx + j) = IvalResp.ok true) → resp (idx + n) = IvalResp.err 22 →
      ∃ m, enumIvalLoop resp rem idx calls acc = (calls + n + 1, .ok m) := by
  intro n
  induction n with
  | zero =>
    intro rem idx calls acc hr _ he
    obtain ⟨rem, rfl⟩ : ∃ r, rem = r + 1 := ⟨rem - 1, by omega⟩
    refine ⟨acc, ?_⟩
    simp only [enumIvalLoop]
    rw [show idx + 0 = idx from rfl] at he
    rw [he]
    simp
  | succ n ih =>
    intro rem idx calls acc hr hok he
    obtain ⟨rem, rfl⟩ : ∃ r, rem = r + 1 := ⟨rem - 1, by omega⟩
    have hb := hok 0 (by omega)
    rw [show idx + 0 = idx from rfl] at hb
    obtain ⟨m, hm⟩ := ih rem (idx + 1) (calls + 1) (acc + 1) (by omega)
      (fun j hj => by
        have h2 := hok (j + 1) (by omega)
        rwa [show idx + (j + 1) = idx + 1 + j from by omega] at h2)
      (by rwa [show idx + 1 + n = idx + (n + 1) from by omega])
    refine ⟨m, ?_⟩
    simp only [enumIvalLoop, hb]
    rw [show calls + (n + 1) + 1 = calls + 1 + n + 1 from by omega]
    simpa using hm

/-- After `n` successful answers, an `EINVAL` answer ends the control loop
normally (the `assert`-then-`break`), after exactly `n + 1` ioctl calls,
given any fuel above `n`. -/
theorem gdcLoop_einval (resp : ℕ → CtrlResp) :
    ∀ (n fuel calls acc : ℕ), n < fuel →
      (∀ j, j < n → IsOkC (resp (calls + j))) → resp (calls + n) = CtrlResp.err 22 →
      ∃ m, gdcLoop resp fuel calls acc = some (calls + n + 1, .ok m) := by
  intro n
  induction n with
  | zero =>
    intro fuel calls acc hr _ he
    obtain ⟨fuel, rfl⟩ : ∃ f, fuel = f + 1 := ⟨fuel - 1, by omega⟩
    refine ⟨acc, ?_⟩
    simp only [gdcLoop]
    rw [show calls + 0 = calls from rfl] at he
    rw [he]
    simp
  | succ n ih =>
    intro fuel calls acc hr hok he
    obtain ⟨fuel, rfl⟩ : ∃ f, fuel = f + 1 := ⟨fuel - 1, by omega⟩
    obtain ⟨b, c, hb⟩ := hok 0 (by omega)
    rw [show calls + 0 = calls from rfl] at hb
    obtain ⟨m, hm⟩ := ih fuel (calls + 1)
      (if b = false ∧ c = false then acc + 1 else acc) (by omega)
      (fun j hj => by
        have h2 := hok (j + 1) (by omega)
        rwa [show calls + (j + 1) = calls + 1 + j from by omega] at h2)
      (by rwa [show calls + 1 + n = calls + (n + 1) from by omega])
    refine ⟨m, ?_⟩
    simp only [gdcLoop, hb]
    rw [show calls + (n + 1) + 1 = calls + 1 + n + 1 from by omega]
    exact hm

/-- Counterexample to claim C4 as stated: the claim asserts that every
enumeration loop — including the control enumeration of
`Device._get_device_controls` — performs at most 128 iterations and hence
terminates even when the driver never returns `EINVAL`.  Against a driver
that always answers success, the control loop is still running after 129
ioctl iterations (it is a `while True` loop with no iteration bound): with
fuel for 129 iterations it exhausts the fuel instead of returning. -/
theorem c4_counterexample : getDeviceControls alwaysOkCtrl 129 = none := by
  decide

/-- Claim C4 as amended: the image-format and frame-interval enumeration
loops are bounded by 128 ioctl iterations and treat `EINVAL` as the normal
end of enumeration (returning collected results, not raising), and the
control-enumeration loop also treats `EINVAL` as the normal end — but it
carries no iteration bound: it ends after exactly `kc + 1` calls whenever
the driver first answers `EINVAL` on call `kc`, for any `kc`. -/
theorem c4_bounded_enumeration (rf : ℕ → FmtResp) (ri : ℕ → IvalResp) (rc : ℕ → CtrlResp)
    (kf ki kc : ℕ)
    (hkf : kf < 128) (hf : ∀ j, j < kf → IsOkF (rf j)) (hfe : rf kf = FmtResp.err 22)
    (hki : ki < 128) (hi : ∀ j, j < ki → ri j = IvalResp.ok true)
    (hie : ri ki = IvalResp.err 22)
    (hc : ∀ j, j < kc → IsOkC (rc j)) (hce : rc kc = CtrlResp.err 22) :
    (∀ resp : ℕ → FmtResp, (readInfoFormats resp).1 ≤ 128) ∧
    (∀ resp : ℕ → IvalResp, (frameIntervalsLoop resp).1 ≤ 128) ∧
    (∃ m, readInfoFormats rf = (kf + 1, .ok m)) ∧
    (∃ m, frameIntervalsLoop ri = (ki + 1, .ok m)) ∧
    (∀ fuel, kc < fuel → ∃ m, getDeviceControls rc fuel = some (kc + 1, .ok m)) := by
  refine ⟨fun resp => by simpa using enumFmtLoop_calls_le resp 128 0 0 0,
    fun resp => by simpa using enumIvalLoop_calls_le resp 128 0 0 0, ?_, ?_, ?_⟩
  · obtain ⟨m, hm⟩ := enumFmtLoop_einval rf kf 128 0 0 0 hkf
      (fun j hj => by simpa using hf j hj) (by simpa using hfe)
    exact ⟨m, by simpa using hm⟩
  · obtain ⟨m, hm⟩ := enumIvalLoop_einval ri ki 128 0 0 0 hki
      (fun j hj => by simpa using hi j hj) (by simpa using hie)
    exact ⟨m, by simpa using hm⟩
  · intro fuel hfuel
    obtain ⟨m, hm⟩ := gdcLoop_einval rc kc fuel 0 0 hfuel
      (fun j hj => by simpa using hc j hj) (by simpa using hce)
    exact ⟨m, by simpa using hm⟩

/-- Witness for the amended C4 at drivers answering success twice and then
`EINVAL`: each loop ends normally after 3 calls. -/
theorem c4_bounded_enumeration_witness :
    (∀ resp : ℕ → FmtResp, (readInfoFormats resp).1 ≤ 128) ∧
    (∀ resp : ℕ → IvalResp, (frameIntervalsLoop resp).1 ≤ 128) ∧
    (∃ m, readInfoFormats fmtRespW = (3, .ok m)) ∧
    (∃ m, frameIntervalsLoop ivalRespW = (3, .ok m)) ∧
    (∀ fuel, 2 < fuel → ∃ m, getDeviceControls ctrlRespW fuel = some (3, .ok m)) :=
  c4_bounded_enumeration fmtRespW ivalRespW ctrlRespW 2 2 2
    (by decide) (fun j hj => ⟨true, by simp [fmtRespW, hj]⟩) (by decide)
    (by decide) (fun j hj => by simp [ivalRespW, hj]) (by decide)
    (fun j hj => ⟨false, false, by simp [ctrlRespW, hj]⟩) (by decide)

/-- The three context-manager step functions are literally the same code. -/
theorem buffersStep_eq : buffersStep = deviceStep := by
  funext s op
  cases op <;> rfl

/-- The three context-manager step functions are literally the same code. -/
theorem streamStep_eq : streamStep = deviceStep := by
  funext s op
  cases op <;> rfl

/-- Core nesting argument: starting strictly inside the outermost block at
level `b` with the resource alive and unreleased, a suffix whose proper
prefixes keep the level positive and which ends at level zero releases the
resource exactly once, at its very last step. -/
theorem ctxFold_nested :
    ∀ (ops : List CtxOp) (b : ℤ), 0 < b →
      (∀ k, k < ops.length → 0 < b + ctxBalance (ops.take k)) →
      b + ctxBalance ops = 0 →
      (ops.foldl deviceStep ⟨b, true, 0⟩ = ⟨0, false, 1⟩) ∧
      (∀ k, k < ops.length →
        (ops.take k).foldl deviceStep ⟨b, true, 0⟩ = ⟨b + ctxBalance (ops.take k), true, 0⟩) := by
  intro ops
  induction ops with
  | nil =>
    intro b hb _ hend
    simp only [ctxBalance, List.map_nil, List.sum_nil] at hend
    omega
  | cons op rest ih =>
    intro b hb hpre hend
    cases op with
    | enter =>
      have hstep : deviceStep ⟨b, true, 0⟩ CtxOp.enter = ⟨b + 1, true, 0⟩ := rfl
      have hend' : (b + 1) + ctxBalance rest = 0 := by
        simp only [ctxBalance, ctxVal, List.map_cons, List.sum_cons] at hend ⊢
        omega
      have hpre' : ∀ k, k < rest.length → 0 < (b + 1) + ctxBalance (rest.take k) := by
        intro k hk
        have := hpre (k + 1) (by simpa using Nat.succ_lt_succ hk)
        simp only [List.take_succ_cons, ctxBalance, ctxVal, List.map_cons,
          List.sum_cons] at this ⊢
        omega
      obtain ⟨hfin, hmid⟩ := ih (b + 1) (by omega) hpre' hend'
      constructor
      · simpa [List.foldl_cons, hstep] using hfin
      · intro k hk
        cases k with
        | zero =>
          simp [ctxBalance]
        | succ k =>
          have hk' : k < rest.length := by simpa using Nat.lt_of_succ_lt_succ hk
          have hm := hmid k hk'
          simp only [List.take_succ_cons, List.foldl_cons, hstep, hm, ctxBalance,
            ctxVal, List.map_cons, List.sum_cons, CtxState.mk.injEq, and_true, true_and]
          omega
    | exit =>
      cases rest with
      | nil =>
        have hb1 : b = 1 := by
          simp only [ctxBalance, ctxVal, List.map_cons, List.map_nil, List.sum_cons,
            List.sum_nil] at hend
          omega
        subst hb1
        refine ⟨rfl, ?_⟩
        intro k hk
        have hk0 : k = 0 := by
          simp only [List.length_cons, List.length_nil] at hk
          omega
        subst hk0
        simp [ctxBalance]
      | cons op2 rest2 =>
        have h1 := hpre 1 (by simp)
        have hbgt : 0 < b - 1 := by
          simp only [List.take_succ_cons, List.take_zero, ctxBalance, ctxVal,
            List.map_cons, List.map_nil, List.sum_cons, List.sum_nil] at h1
          omega
        have hstep : deviceStep ⟨b, true, 0⟩ CtxOp.exit = ⟨b - 1, true, 0⟩ := by
          simp only [deviceStep, if_neg (by omega : ¬ b - 1 = 0)]
        have hend' : (b - 1) + ctxBalance (op2 :: rest2) = 0 := by
          simp only [ctxBalance, ctxVal, List.map_cons, List.sum_cons] at hend ⊢
          omega
        have hpre' : ∀ k, k < (op2 :: rest2).length →
            0 < (b - 1) + ctxBalance ((op2 :: rest2).take k) := by
          intro k hk
          have := hpre (k + 1) (by simpa using Nat.succ_lt_succ hk)
          simp only [List.take_succ_cons, ctxBalance, ctxVal, List.map_cons,
            List.sum_cons] at this ⊢
          omega
        obtain ⟨hfin, hmid⟩ := ih (b - 1) hbgt hpre' hend'
        constructor
        · simpa [List.foldl_cons, hstep] using hfin
        · intro k hk
          cases k with
          | zero =>
            simp [ctxBalance]
          | succ k =>
            have hk' : k < (op2 :: rest2).length := by simpa using Nat.lt_of_succ_lt_succ hk
            have hm := hmid k hk'
            simp only [List.take_succ_cons, List.foldl_cons, hstep, hm, ctxBalance,
              ctxVal, List.map_cons, List.sum_cons, CtxState.mk.injEq, and_true, true_and]
            omega

/-- Claim C10: for every properly nested sequence of `with`-block boundaries
over a single `Device`, `Buffers` or `VideoStream` object, the underlying
resource is released exactly once, at the outermost exit, and at no inner
exit: every proper prefix of the run leaves the release count at zero and
the full run ends with release count one. -/
theorem c10_context_managers (ops : List CtxOp) (h : NestedCtx ops) :
    ((runDevice ops).closes = 1 ∧
      ∀ k, k < ops.length → (runDevice (ops.take k)).closes = 0) ∧
    ((runBuffers ops).closes = 1 ∧
      ∀ k, k < ops.length → (runBuffers (ops.take k)).closes = 0) ∧
    ((runStream ops).closes = 1 ∧
      ∀ k, k < ops.length → (runStream (ops.take k)).closes = 0) := by
  obtain ⟨hne, hbal, hpos⟩ := h
  have hdev : (runDevice ops).closes = 1 ∧
      ∀ k, k < ops.length → (runDevice (ops.take k)).closes = 0 := by
    cases ops with
    | nil => exact absurd rfl hne
    | cons op rest =>
      have hop : op = CtxOp.enter := by
        cases op with
        | enter => rfl
        | exit =>
          cases rest with
          | nil =>
            simp [ctxBalance, ctxVal] at hbal
          | cons op2 rest2 =>
            have := hpos 1 (by omega) (by simp)
            simp [ctxBalance, ctxVal] at this
      subst hop
      have hstep : deviceStep ctxInit CtxOp.enter = ⟨1, true, 0⟩ := rfl
      have hend' : (1 : ℤ) + ctxBalance rest = 0 := by
        simp only [ctxBalance, ctxVal, List.map_cons, List.sum_cons] at hbal ⊢
        omega
      have hpre' : ∀ k, k < rest.length → 0 < (1 : ℤ) + ctxBalance (rest.take k) := by
        intro k hk
        have := hpos (k + 1) (by omega) (by simpa using Nat.succ_lt_succ hk)
        simp only [List.take_succ_cons, ctxBalance, ctxVal, List.map_cons,
          List.sum_cons] at this ⊢
        omega
      obtain ⟨hfin, hmid⟩ := ctxFold_nested rest 1 (by omega) hpre' hend'
      constructor
      · show ((CtxOp.enter :: rest).foldl deviceStep ctxInit).closes = 1
        rw [List.foldl_cons, hstep, hfin]
      · intro k hk
        cases k with
        | zero => rfl
        | succ k =>
          have hk' : k < rest.length := by simpa using Nat.lt_of_succ_lt_succ hk
          show (((CtxOp.enter :: rest).take (k + 1)).foldl deviceStep ctxInit).closes = 0
          rw [List.take_succ_cons, List.foldl_cons, hstep, hmid k hk']
  refine ⟨hdev, ?_, ?_⟩
  · have : runBuffers = runDevice := by
      funext l
      show l.foldl buffersStep ctxInit = l.foldl deviceStep ctxInit
      rw [buffersStep_eq]
    rw [this]
    exact hdev
  · have : runStream = runDevice := by
      funext l
      show l.foldl streamStep ctxInit = l.foldl deviceStep ctxInit
      rw [streamStep_eq]
    rw [this]
    exact hdev

/-- Witness for C10 at the doubly nested sequence enter-enter-exit-exit. -/
theorem c10_context_managers_witness :
    ((runDevice [CtxOp.enter, CtxOp.enter, CtxOp.exit, CtxOp.exit]).closes = 1 ∧
      ∀ k, k < [CtxOp.enter, CtxOp.enter, CtxOp.exit, CtxOp.exit].length →
        (runDevice ([CtxOp.enter, CtxOp.enter, CtxOp.exit, CtxOp.exit].take k)).closes = 0) ∧
    ((runBuffers [CtxOp.enter, CtxOp.enter, CtxOp.exit, CtxOp.exit]).closes = 1 ∧
      ∀ k, k < [CtxOp.enter, CtxOp.enter, CtxOp.exit, CtxOp.exit].length →
        (runBuffers ([CtxOp.enter, CtxOp.enter, CtxOp.exit, CtxOp.exit].take k)).closes = 0) ∧
    ((runStream [CtxOp.enter, CtxOp.enter, CtxOp.exit, CtxOp.exit]).closes = 1 ∧
      ∀ k, k < [CtxOp.enter, CtxOp.enter, CtxOp.exit, CtxOp.exit].length →
        (runStream ([CtxOp.enter, CtxOp.enter, CtxOp.exit, CtxOp.exit].take k)).closes = 0) :=
  c10_context_managers [CtxOp.enter, CtxOp.enter, CtxOp.exit, CtxOp.exit]
    ⟨by decide, by decide, by
      intro k h1 h2
      simp only [List.length_cons, List.length_nil] at h2
      interval_cases k <;> decide⟩

/-- Claim C6: modelling the kernel as storing the submitted time-per-frame
rational unchanged, `set_fps(30)` followed by `get_fps()` returns exactly 30
(well within floating-point tolerance), and `set_fps(29.97)` followed by
`get_fps()` returns exactly 29.97, within 0.001. -/
theorem c6_round_trip :
    (∃ t v, setFps 30 = .ok t ∧ getFps t = .ok v ∧ |v - 30| ≤ 1 / 1000000) ∧
    (∃ t v, setFps (2997 / 100) = .ok t ∧ getFps t = .ok v ∧ |v - 2997 / 100| ≤ 1 / 1000) := by
  constructor
  · refine ⟨⟨1, 30⟩, 30, by decide, ?_, by norm_num⟩
    show getFps ⟨1, 30⟩ = .ok 30
    norm_num [getFps]
  · refine ⟨⟨100, 2997⟩, 2997 / 100, ?_, ?_, by norm_num⟩
    · rw [show (2997 / 100 : ℚ) = (⟨2997, 100, by norm_num, by norm_num⟩ : ℚ) by
        rw [Rat.mk'_eq_divInt, Rat.divInt_eq_div]; norm_num]
      decide
    · show getFps ⟨100, 2997⟩ = .ok (2997 / 100)
      norm_num [getFps]

/-- The `Fraction(n, d)` constructor normalization, for positive `d`:
the result is the reduced numerator/denominator pair of the rational
`n / d`, its denominator is positive and no larger than `d`, and its value
is `n / d`. -/
theorem pyFrac_spec (n d : ℤ) (hd : 0 < d) :
    fracVal (pyFrac n d) = (n : ℚ) / (d : ℚ) ∧
    (pyFrac n d).1 = ((n : ℚ) / (d : ℚ)).num ∧
    (pyFrac n d).2 = (((n : ℚ) / (d : ℚ)).den : ℤ) ∧
    0 < (pyFrac n d).2 ∧ (pyFrac n d).2 ≤ d := by
  have hd0 : d ≠ 0 := hd.ne'
  have hgpos : 0 < Int.gcd n d := Int.gcd_pos_of_ne_zero_right n hd0
  set g : ℤ := (Int.gcd n d : ℤ) with hg
  have hgz : 0 < g := by rw [hg]; exact_mod_cast hgpos
  have hfr : pyFrac n d = (n / g, d / g) := by
    simp only [pyFrac, hg, if_neg (by omega : ¬ d < 0), if_neg hd0]
  have hdvdn : g ∣ n := Int.gcd_dvd_left
  have hdvdd : g ∣ d := Int.gcd_dvd_right
  have hdq : 0 < d / g := by
    have h1 : g ≤ d := Int.le_of_dvd hd hdvdd
    have h2 := (Int.le_ediv_iff_mul_le hgz).mpr (by omega : 1 * g ≤ d)
    omega
  have hcop : Nat.Coprime (n / g).natAbs (d / g).natAbs :=
    Int.gcd_div_gcd_div_gcd hgpos
  have hvx : ((n / g : ℤ) : ℚ) / ((d / g : ℤ) : ℚ) = (n : ℚ) / (d : ℚ) := by
    have h1 : (g * (n / g) : ℤ) = n := Int.mul_ediv_cancel' hdvdn
    have h2 : (g * (d / g) : ℤ) = d := Int.mul_ediv_cancel' hdvdd
    have key : (n / g) * d = n * (d / g) := by linear_combination (d / g) * h1 - (n / g) * h2
    rw [div_eq_div_iff (by exact_mod_cast hdq.ne') (by exact_mod_cast hd.ne')]
    exact_mod_cast key
  refine ⟨?_, ?_, ?_, ?_, ?_⟩
  · rw [hfr]
    exact hvx
  · rw [hfr]
    show n / g = ((n : ℚ) / (d : ℚ)).num
    rw [← hvx, Rat.num_div_eq_of_coprime hdq hcop]
  · rw [hfr]
    show d / g = (((n : ℚ) / (d : ℚ)).den : ℤ)
    rw [← hvx, Rat.den_div_eq_of_coprime hdq hcop]
  · rw [hfr]
    exact hdq
  · rw [hfr]
    show d / g ≤ d
    exact Int.ediv_le_self g hd.le

/-- The cross-multiplied comparison `absSubLe` agrees with the rational
comparison `abs(a - x) <= abs(c - x)` whenever all denominators are
positive. -/
theorem absSubLe_iff (a x c : PyFrac) (ha : 0 < a.2) (hx : 0 < x.2) (hc : 0 < c.2) :
    absSubLe a x c x = true ↔ |fracVal a - fracVal x| ≤ |fracVal c - fracVal x| := by
  have ha' : ((a.2 : ℚ)) ≠ 0 := by exact_mod_cast ha.ne'
  have hx' : ((x.2 : ℚ)) ≠ 0 := by exact_mod_cast hx.ne'
  have hc' : ((c.2 : ℚ)) ≠ 0 := by exact_mod_cast hc.ne'
  have hax : (0 : ℚ) < ((a.2 * x.2 : ℤ) : ℚ) := by exact_mod_cast mul_pos ha hx
  have hcx : (0 : ℚ) < ((c.2 * x.2 : ℤ) : ℚ) := by exact_mod_cast mul_pos hc hx
  have e1 : fracVal a - fracVal x =
      ((a.1 * x.2 - x.1 * a.2 : ℤ) : ℚ) / ((a.2 * x.2 : ℤ) : ℚ) := by
    simp only [fracVal]
    rw [div_sub_div _ _ ha' hx']
    push_cast
    ring_nf
  have e2 : fracVal c - fracVal x =
      ((c.1 * x.2 - x.1 * c.2 : ℤ) : ℚ) / ((c.2 * x.2 : ℤ) : ℚ) := by
    simp only [fracVal]
    rw [div_sub_div _ _ hc' hx']
    push_cast
    ring_nf
  simp only [absSubLe, decide_eq_true_eq]
  rw [e1, e2, abs_div, abs_div, abs_of_pos hax, abs_of_pos hcx,
    div_le_div_iff₀ hax hcx]
  constructor
  · intro h
    exact_mod_cast h
  · intro h
    exact_mod_cast h

/-- Farey-gap lemma: two fractions `a/b < c/d` with `c*b - a*d = 1` are
adjacent: any fraction `e/f` strictly between them has `f ≥ b + d`. -/
theorem farey_gap (a b c d e f : ℤ) (hb : 0 < b) (hd : 0 < d) (hf : 0 < f)
    (hdet : c * b - a * d = 1)
    (h1 : (a : ℚ) / (b : ℚ) < (e : ℚ) / (f : ℚ))
    (h2 : (e : ℚ) / (f : ℚ) < (c : ℚ) / (d : ℚ)) :
    b + d ≤ f := by
  have hb' : (0 : ℚ) < (b : ℚ) := by exact_mod_cast hb
  have hd' : (0 : ℚ) < (d : ℚ) := by exact_mod_cast hd
  have hf' : (0 : ℚ) < (f : ℚ) := by exact_mod_cast hf
  have k1 : a * f < e * b := by
    have := (div_lt_div_iff₀ hb' hf').mp h1
    exact_mod_cast this
  have k2 : e * d < c * f := by
    have := (div_lt_div_iff₀ hf' hd').mp h2
    exact_mod_cast this
  have k1' : 1 ≤ e * b - a * f := by linarith
  have k2' : 1 ≤ c * f - e * d := by linarith
  have idf : f * (c * b - a * d) = b * (c * f - e * d) + d * (e * b - a * f) := by ring
  have hb2 : b * 1 ≤ b * (c * f - e * d) := mul_le_mul_of_nonneg_left k2' hb.le
  have hd2 : d * 1 ≤ d * (e * b - a * f) := mul_le_mul_of_nonneg_left k1' hd.le
  have hfe : f * 1 = b * (c * f - e * d) + d * (e * b - a * f) := by
    rw [← hdet]
    exact idf
  linarith

/-- If `a/b < x < c/d` with `a/b`, `c/d` Farey-adjacent, both denominators
no larger than `D` but their sum beyond `D`, then every rational with
denominator at most `D` is no closer to `x` than the nearer of the two
endpoints. -/
theorem straddle_opt (x : ℚ) (D : ℤ) (a b c d : ℤ)
    (hb : 0 < b) (hd : 0 < d) (hsum : D < b + d)
    (hdet : c * b - a * d = 1)
    (_hu : (a : ℚ) / (b : ℚ) < x) (_hv : x < (c : ℚ) / (d : ℚ)) :
    ∀ q : ℚ, (q.den : ℤ) ≤ D →
      min (x - (a : ℚ) / (b : ℚ)) ((c : ℚ) / (d : ℚ) - x) ≤ |x - q| := by
  intro q hq
  rcases le_or_lt q ((a : ℚ) / (b : ℚ)) with hle | hgt
  · calc min (x - (a : ℚ) / (b : ℚ)) ((c : ℚ) / (d : ℚ) - x)
        ≤ x - (a : ℚ) / (b : ℚ) := min_le_left _ _
      _ ≤ x - q := by linarith
      _ ≤ |x - q| := le_abs_self _
  · rcases le_or_lt ((c : ℚ) / (d : ℚ)) q with hle2 | hlt2
    · calc min (x - (a : ℚ) / (b : ℚ)) ((c : ℚ) / (d : ℚ) - x)
          ≤ (c : ℚ) / (d : ℚ) - x := min_le_right _ _
        _ ≤ q - x := by linarith
        _ ≤ |x - q| := by rw [abs_sub_comm]; exact le_abs_self _
    · exfalso
      have hfq : 0 < (q.den : ℤ) := by exact_mod_cast q.pos
      have h1 : (a : ℚ) / (b : ℚ) < (q.num : ℚ) / ((q.den : ℤ) : ℚ) := by
        push_cast
        rw [Rat.num_div_den]
        exact hgt
      have h2 : (q.num : ℚ) / ((q.den : ℤ) : ℚ) < (c : ℚ) / (d : ℚ) := by
        push_cast
        rw [Rat.num_div_den]
        exact hlt2
      have := farey_gap a b c d q.num (q.den : ℤ) hb hd hfq hdet h1 h2
      omega

/-- Under the loop invariant, with the value's denominator beyond the
ceiling, the Euclidean remainder can never reach zero (so Python's
`n // d` never divides by zero). -/
theorem ldInv_d_pos (x : ℚ) (D : ℤ) (p0 q0 p1 q1 n : ℤ) (d : ℕ)
    (inv : LDInv x D p0 q0 p1 q1 n d) (hxD : D < (x.den : ℤ)) : 0 < d := by
  by_contra h
  have hd0 : d = 0 := by omega
  subst hd0
  have hnum : p1 * n = x.num := by
    have := inv.hnum
    push_cast at this
    linarith
  have hden : q1 * n = (x.den : ℤ) := by
    have := inv.hden
    push_cast at this
    linarith
  have hdvd1 : n ∣ x.num := ⟨p1, by rw [← hnum]; ring⟩
  have hdvd2 : n ∣ (x.den : ℤ) := ⟨q1, by rw [← hden]; ring⟩
  have hnat1 : n.natAbs ∣ x.num.natAbs := Int.natAbs_dvd_natAbs.mpr hdvd1
  have hnat2 : n.natAbs ∣ x.den := by
    have := Int.natAbs_dvd_natAbs.mpr hdvd2
    simpa using this
  have hdgcd : n.natAbs ∣ Nat.gcd x.num.natAbs x.den := Nat.dvd_gcd hnat1 hnat2
  have hone : n.natAbs ∣ 1 := x.reduced ▸ hdgcd
  have habs1 : n.natAbs = 1 := Nat.dvd_one.mp hone
  have hn1 : n = 1 := by
    have := inv.hn
    omega
  subst hn1
  have := inv.hq1D
  omega

/-- Running the convergent loop from any invariant state with enough fuel
reaches the break: the result is a state that still satisfies the invariant,
has a positive Euclidean remainder, and satisfies the break condition
`q0 + (n / d) * q1 > D`. -/
theorem ldLoop_spec (x : ℚ) (D : ℤ) (hxD : D < (x.den : ℤ)) :
    ∀ (fuel : ℕ) (p0 q0 p1 q1 n : ℤ) (d : ℕ), d < fuel →
      LDInv x D p0 q0 p1 q1 n d →
      ∃ P0 Q0 P1 Q1 N : ℤ, ∃ Dd : ℕ,
        ldLoop D fuel p0 q0 p1 q1 n d = some (P0, Q0, P1, Q1, N, Dd) ∧
        LDInv x D P0 Q0 P1 Q1 N Dd ∧ 0 < Dd ∧
        D < Q0 + N / ((Dd : ℕ) : ℤ) * Q1 := by
  intro fuel
  induction fuel with
  | zero =>
    intro p0 q0 p1 q1 n d h _
    omega
  | succ fuel ih =>
    intro p0 q0 p1 q1 n d hfuel inv
    have hdpos : 0 < d := ldInv_d_pos x D p0 q0 p1 q1 n d inv hxD
    obtain ⟨dd, rfl⟩ : ∃ dd, d = dd + 1 := ⟨d - 1, by omega⟩
    have hcastd : ((dd + 1 : ℕ) : ℤ) = (dd : ℤ) + 1 := by push_cast; ring
    by_cases hbrk : D < q0 + n / ((dd : ℤ) + 1) * q1
    · refine ⟨p0, q0, p1, q1, n, dd + 1, ?_, inv, by omega, ?_⟩
      · simp only [ldLoop]
        rw [if_pos hbrk]
      · rwa [hcastd]
    · have hd' : (0 : ℤ) < (dd : ℤ) + 1 := by positivity
      have ha : 0 ≤ n / ((dd : ℤ) + 1) := Int.ediv_nonneg (by linarith [inv.hn]) hd'.le
      have hmod0 : 0 ≤ n % ((dd : ℤ) + 1) := Int.emod_nonneg n hd'.ne'
      have hmodlt : n % ((dd : ℤ) + 1) < (dd : ℤ) + 1 := Int.emod_lt_of_pos n hd'
      have hcast : (((n % ((dd : ℤ) + 1)).toNat : ℕ) : ℤ) = n % ((dd : ℤ) + 1) :=
        Int.toNat_of_nonneg hmod0
      have hmoddef : n % ((dd : ℤ) + 1) = n - ((dd : ℤ) + 1) * (n / ((dd : ℤ) + 1)) :=
        Int.emod_def n ((dd : ℤ) + 1)
      have hN := inv.hnum
      have hDen := inv.hden
      rw [hcastd] at hN hDen
      have inv' : LDInv x D p1 q1 (p0 + n / ((dd : ℤ) + 1) * p1)
          (q0 + n / ((dd : ℤ) + 1) * q1) ((dd : ℤ) + 1) (n % ((dd : ℤ) + 1)).toNat := by
        refine ⟨inv.hp1, ?_, inv.hq1, ?_, inv.hq1D, not_lt.mp hbrk, by omega, ?_, ?_, ?_⟩
        · have := mul_nonneg ha inv.hp1
          linarith [inv.hp0]
        · have := mul_nonneg ha inv.hq1
          linarith [inv.hq0]
        · rw [hcast, hmoddef]
          linear_combination hN
        · rw [hcast, hmoddef]
          linear_combination hDen
        · have hflip : (p0 + n / ((dd : ℤ) + 1) * p1) * q1 -
              p1 * (q0 + n / ((dd : ℤ) + 1) * q1) = -(p1 * q0 - p0 * q1) := by ring
          rcases inv.hdet with hdet | hdet
          · exact Or.inr (by rw [hflip, hdet])
          · exact Or.inl (by rw [hflip, hdet]; ring)
      have hfuel' : (n % ((dd : ℤ) + 1)).toNat < fuel := by
        have h1 : ((n % ((dd : ℤ) + 1)).toNat : ℤ) < (dd : ℤ) + 1 := by
          rw [hcast]
          exact hmodlt
        omega
      obtain ⟨P0, Q0, P1, Q1, N, Dd, hrun, hinv2, hDd, hbrk2⟩ :=
        ih p1 q1 (p0 + n / ((dd : ℤ) + 1) * p1) (q0 + n / ((dd : ℤ) + 1) * q1)
          ((dd : ℤ) + 1) (n % ((dd : ℤ) + 1)).toNat hfuel' inv'
      refine ⟨P0, Q0, P1, Q1, N, Dd, ?_, hinv2, hDd, hbrk2⟩
      simp only [ldLoop]
      rw [if_neg hbrk]
      exact hrun

/-- The branch `abs(bound2 - self) <= abs(bound1 - self) ? bound2 : bound1`
selects a value whose distance to `x` is at most the distance to either
endpoint of an interval straddling `x`. -/
theorem chosen_le_min (x r u v : ℚ) (hu : u < x) (hv : x < v)
    (hr : (r = v ∧ |v - x| ≤ |u - x|) ∨ (r = u ∧ |u - x| ≤ |v - x|)) :
    |x - r| ≤ min (x - u) (v - x) := by
  have h1 : |v - x| = v - x := abs_of_pos (by linarith)
  have h2 : |u - x| = x - u := by
    rw [abs_of_neg (by linarith : u - x < 0)]
    ring
  rcases hr with ⟨rfl, h⟩ | ⟨rfl, h⟩
  · rw [abs_sub_comm, h1]
    rw [h1, h2] at h
    exact le_min h le_rfl
  · rw [abs_sub_comm, h2]
    rw [h1, h2] at h
    exact le_min le_rfl h

set_option maxHeartbeats 1000000 in
/-- Full specification of `Fraction.limit_denominator` on a positive
rational whose reduced pair is submitted with a ceiling `D ≥ 1`: the call
succeeds, the returned pair is the reduced numerator/denominator pair of its
own value, that value's denominator is within the ceiling, and the value is
a closest rational to `x` among all rationals with denominator within the
ceiling. -/
theorem limitDen_spec (x : ℚ) (D : ℤ) (hD : 1 ≤ D) (hx : 0 < x) :
    ∃ p : PyFrac, limitDenominator (x.num, (x.den : ℤ)) D = .ok p ∧
      p.1 = (fracVal p).num ∧ p.2 = ((fracVal p).den : ℤ) ∧
      ((fracVal p).den : ℤ) ≤ D ∧
      ∀ q : ℚ, (q.den : ℤ) ≤ D → |x - fracVal p| ≤ |x - q| := by
  have hxval : fracVal (x.num, (x.den : ℤ)) = x := by
    simp only [fracVal]
    push_cast
    exact Rat.num_div_den x
  by_cases hcase : (x.den : ℤ) ≤ D
  · refine ⟨(x.num, (x.den : ℤ)), ?_, ?_, ?_, ?_, ?_⟩
    · simp only [limitDenominator]
      rw [if_neg (by omega), if_pos hcase]
    · rw [hxval]
    · rw [hxval]
    · rw [hxval]
      exact hcase
    · rw [hxval]
      intro q hq
      simp only [sub_self, abs_zero]
      exact abs_nonneg _
  · have hxD : D < (x.den : ℤ) := not_le.mp hcase
    have hnum1 : (1 : ℤ) ≤ x.num := Rat.num_pos.mpr hx
    have inv0 : LDInv x D 0 1 1 0 x.num x.den :=
      ⟨le_rfl, zero_le_one, zero_le_one, le_rfl, hD, by omega, hnum1,
        by ring, by ring, Or.inl (by norm_num)⟩
    obtain ⟨P0, Q0, P1, Q1, N, Dd, hrun, inv2, hDd, hbrk⟩ :=
      ldLoop_spec x D hxD (x.den + 1) 0 1 1 0 x.num x.den (by omega) inv0
    have hQ1pos : 0 < Q1 := by
      rcases eq_or_lt_of_le inv2.hq1 with hq0 | hq0
      · rw [← hq0] at hbrk
        simp only [mul_zero, add_zero] at hbrk
        exact absurd hbrk (not_lt.mpr inv2.hq0D)
      · exact hq0
    have hDdpos : (0 : ℤ) < (Dd : ℤ) := by exact_mod_cast hDd
    set k : ℤ := (D - Q0) / Q1 with hkdef
    have hk0 : 0 ≤ k := Int.ediv_nonneg (by linarith [inv2.hq0D]) hQ1pos.le
    have hkle : k * Q1 ≤ D - Q0 := by
      have h1 := Int.emod_nonneg (D - Q0) hQ1pos.ne'
      have h2 := Int.emod_def (D - Q0) Q1
      linarith
    have hklt : D - Q0 < (k + 1) * Q1 := by
      have h1 := Int.emod_lt_of_pos (D - Q0) hQ1pos
      have h2 := Int.emod_def (D - Q0) Q1
      linarith
    have hB1pos : 0 < Q0 + k * Q1 := by
      rcases eq_or_lt_of_le inv2.hq0 with hq00 | hq0pos
      · have hk1 : 1 ≤ k := by
          rw [hkdef]
          refine (Int.le_ediv_iff_mul_le hQ1pos).mpr ?_
          have := inv2.hq1D
          omega
        nlinarith
      · nlinarith [mul_nonneg hk0 hQ1pos.le]
    have hkA : k < N / (Dd : ℤ) := by
      by_contra hge
      have hle1 : N / (Dd : ℤ) ≤ k := not_lt.mp hge
      have hle2 : N / (Dd : ℤ) * Q1 ≤ k * Q1 := mul_le_mul_of_nonneg_right hle1 hQ1pos.le
      linarith
    have hAD : N / (Dd : ℤ) * (Dd : ℤ) ≤ N := by
      have h1 := Int.emod_nonneg N hDdpos.ne'
      have h2 := Int.emod_def N (Dd : ℤ)
      linarith
    have hNk : (Dd : ℤ) ≤ N - k * (Dd : ℤ) := by
      have hk1 : k + 1 ≤ N / (Dd : ℤ) := hkA
      have := mul_le_mul_of_nonneg_right hk1 hDdpos.le
      linarith
    have hxnum := inv2.hnum
    have hxden := inv2.hden
    have hxdenpos : (0 : ℤ) < (x.den : ℤ) := by exact_mod_cast x.pos
    have F1 : x.num * Q1 - P1 * (x.den : ℤ) = -(P1 * Q0 - P0 * Q1) * (Dd : ℤ) := by
      linear_combination P1 * hxden - Q1 * hxnum
    have F2 : x.num * (Q0 + k * Q1) - (P0 + k * P1) * (x.den : ℤ) =
        (P1 * Q0 - P0 * Q1) * (N - k * (Dd : ℤ)) := by
      linear_combination (P0 + k * P1) * hxden - (Q0 + k * Q1) * hxnum
    obtain ⟨hv2val, hv2num, hv2den, hv2pos, hv2le⟩ := pyFrac_spec P1 Q1 hQ1pos
    obtain ⟨hv1val, hv1num, hv1den, hv1pos, hv1le⟩ :=
      pyFrac_spec (P0 + k * P1) (Q0 + k * Q1) hB1pos
    have hv2num2 : (pyFrac P1 Q1).1 = (fracVal (pyFrac P1 Q1)).num := by
      rw [hv2val]
      exact hv2num
    have hv2den2 : (pyFrac P1 Q1).2 = ((fracVal (pyFrac P1 Q1)).den : ℤ) := by
      rw [hv2val]
      exact hv2den
    have hv1num2 : (pyFrac (P0 + k * P1) (Q0 + k * Q1)).1 =
        (fracVal (pyFrac (P0 + k * P1) (Q0 + k * Q1))).num := by
      rw [hv1val]
      exact hv1num
    have hv1den2 : (pyFrac (P0 + k * P1) (Q0 + k * Q1)).2 =
        ((fracVal (pyFrac (P0 + k * P1) (Q0 + k * Q1))).den : ℤ) := by
      rw [hv1val]
      exact hv1den
    have hv2denD : ((fracVal (pyFrac P1 Q1)).den : ℤ) ≤ D := by
      rw [hv2val, ← hv2den]
      exact le_trans hv2le inv2.hq1D
    have hv1denD : ((fracVal (pyFrac (P0 + k * P1) (Q0 + k * Q1))).den : ℤ) ≤ D := by
      rw [hv1val, ← hv1den]
      exact le_trans hv1le (by linarith)
    have hxq : x = (x.num : ℚ) / ((x.den : ℤ) : ℚ) := by
      push_cast
      exact (Rat.num_div_den x).symm
    have hxpos2 : (0 : ℚ) < ((x.den : ℤ) : ℚ) := by exact_mod_cast hxdenpos
    have hQ1q : (0 : ℚ) < ((Q1 : ℤ) : ℚ) := by exact_mod_cast hQ1pos
    have hB1q : (0 : ℚ) < ((Q0 + k * Q1 : ℤ) : ℚ) := by exact_mod_cast hB1pos
    have htoNat : ((x.den : ℤ)).toNat = x.den := Int.toNat_natCast x.den
    have hprog : limitDenominator (x.num, (x.den : ℤ)) D =
        (if absSubLe (pyFrac P1 Q1) (x.num, (x.den : ℤ))
            (pyFrac (P0 + k * P1) (Q0 + k * Q1)) (x.num, (x.den : ℤ))
         then .ok (pyFrac P1 Q1)
         else .ok (pyFrac (P0 + k * P1) (Q0 + k * Q1))) := by
      simp only [limitDenominator, htoNat]
      rw [if_neg (by omega), if_neg (by simpa using hcase)]
      rw [hrun]
      simp only [if_neg hQ1pos.ne', ← hkdef, if_neg hB1pos.ne']
    have habs_iff : absSubLe (pyFrac P1 Q1) (x.num, (x.den : ℤ))
        (pyFrac (P0 + k * P1) (Q0 + k * Q1)) (x.num, (x.den : ℤ)) = true ↔
        |fracVal (pyFrac P1 Q1) - x| ≤
          |fracVal (pyFrac (P0 + k * P1) (Q0 + k * Q1)) - x| := by
      rw [absSubLe_iff (pyFrac P1 Q1) (x.num, (x.den : ℤ))
        (pyFrac (P0 + k * P1) (Q0 + k * Q1)) hv2pos (by simpa using hxdenpos) hv1pos,
        hxval]
    rcases inv2.hdet with hS | hS
    · -- determinant +1: the semiconvergent lies below x, the convergent above
      have hxv2 : x < (P1 : ℚ) / ((Q1 : ℤ) : ℚ) := by
        rw [hxq]
        refine (div_lt_div_iff₀ hxpos2 hQ1q).mpr ?_
        have hcross : x.num * Q1 < P1 * (x.den : ℤ) := by
          rw [hS] at F1
          linarith
        exact_mod_cast hcross
      have hv1x : ((P0 + k * P1 : ℤ) : ℚ) / ((Q0 + k * Q1 : ℤ) : ℚ) < x := by
        rw [hxq]
        refine (div_lt_div_iff₀ hB1q hxpos2).mpr ?_
        have hcross : (P0 + k * P1) * (x.den : ℤ) < x.num * (Q0 + k * Q1) := by
          rw [hS] at F2
          linarith
        exact_mod_cast hcross
      have hdet2 : P1 * (Q0 + k * Q1) - (P0 + k * P1) * Q1 = 1 := by
        rw [← hS]
        ring
      have hstr := straddle_opt x D (P0 + k * P1) (Q0 + k * Q1) P1 Q1
        hB1pos hQ1pos (by linarith) hdet2 hv1x hxv2
      by_cases hcond : absSubLe (pyFrac P1 Q1) (x.num, (x.den : ℤ))
          (pyFrac (P0 + k * P1) (Q0 + k * Q1)) (x.num, (x.den : ℤ)) = true
      · refine ⟨pyFrac P1 Q1, by rw [hprog, if_pos hcond], hv2num2, hv2den2, hv2denD, ?_⟩
        intro q hq
        have habs := habs_iff.mp hcond
        rw [hv2val, hv1val] at habs
        have hch := chosen_le_min x (fracVal (pyFrac P1 Q1))
          (((P0 + k * P1 : ℤ) : ℚ) / ((Q0 + k * Q1 : ℤ) : ℚ))
          ((P1 : ℚ) / ((Q1 : ℤ) : ℚ)) hv1x hxv2
          (Or.inl ⟨hv2val, habs⟩)
        exact le_trans hch (hstr q hq)
      · refine ⟨pyFrac (P0 + k * P1) (Q0 + k * Q1),
          by rw [hprog, if_neg hcond], hv1num2, hv1den2, hv1denD, ?_⟩
        intro q hq
        have habs : ¬ |(P1 : ℚ) / ((Q1 : ℤ) : ℚ) - x| ≤
            |((P0 + k * P1 : ℤ) : ℚ) / ((Q0 + k * Q1 : ℤ) : ℚ) - x| := by
          intro hcontra
          exact hcond (habs_iff.mpr (by rw [hv2val, hv1val]; exact hcontra))
        have hch := chosen_le_min x (fracVal (pyFrac (P0 + k * P1) (Q0 + k * Q1)))
          (((P0 + k * P1 : ℤ) : ℚ) / ((Q0 + k * Q1 : ℤ) : ℚ))
          ((P1 : ℚ) / ((Q1 : ℤ) : ℚ)) hv1x hxv2
          (Or.inr ⟨hv1val, le_of_lt (not_le.mp habs)⟩)
        exact le_trans hch (hstr q hq)
    · -- determinant -1: the convergent lies below x, the semiconvergent above
      have hv2x : (P1 : ℚ) / ((Q1 : ℤ) : ℚ) < x := by
        rw [hxq]
        refine (div_lt_div_iff₀ hQ1q hxpos2).mpr ?_
        have hcross : P1 * (x.den : ℤ) < x.num * Q1 := by
          rw [hS] at F1
          linarith
        exact_mod_cast hcross
      have hxv1 : x < ((P0 + k * P1 : ℤ) : ℚ) / ((Q0 + k * Q1 : ℤ) : ℚ) := by
        rw [hxq]
        refine (div_lt_div_iff₀ hxpos2 hB1q).mpr ?_
        have hcross : x.num * (Q0 + k * Q1) < (P0 + k * P1) * (x.den : ℤ) := by
          rw [hS] at F2
          linarith
        exact_mod_cast hcross
      have hdet2 : (P0 + k * P1) * Q1 - P1 * (Q0 + k * Q1) = 1 := by
        have hrw : (P0 + k * P1) * Q1 - P1 * (Q0 + k * Q1) = -(P1 * Q0 - P0 * Q1) := by
          ring
        rw [hrw, hS]
        ring
      have hstr := straddle_opt x D P1 Q1 (P0 + k * P1) (Q0 + k * Q1)
        hQ1pos hB1pos (by linarith) hdet2 hv2x hxv1
      by_cases hcond : absSubLe (pyFrac P1 Q1) (x.num, (x.den : ℤ))
          (pyFrac (P0 + k * P1) (Q0 + k * Q1)) (x.num, (x.den : ℤ)) = true
      · refine ⟨pyFrac P1 Q1, by rw [hprog, if_pos hcond], hv2num2, hv2den2, hv2denD, ?_⟩
        intro q hq
        have habs := habs_iff.mp hcond
        rw [hv2val, hv1val] at habs
        have hch := chosen_le_min x (fracVal (pyFrac P1 Q1))
          ((P1 : ℚ) / ((Q1 : ℤ) : ℚ))
          (((P0 + k * P1 : ℤ) : ℚ) / ((Q0 + k * Q1 : ℤ) : ℚ)) hv2x hxv1
          (Or.inr ⟨hv2val, habs⟩)
        exact le_trans hch (hstr q hq)
      · refine ⟨pyFrac (P0 + k * P1) (Q0 + k * Q1),
          by rw [hprog, if_neg hcond], hv1num2, hv1den2, hv1denD, ?_⟩
        intro q hq
        have habs : ¬ |(P1 : ℚ) / ((Q1 : ℤ) : ℚ) - x| ≤
            |((P0 + k * P1 : ℤ) : ℚ) / ((Q0 + k * Q1 : ℤ) : ℚ) - x| := by
          intro hcontra
          exact hcond (habs_iff.mpr (by rw [hv2val, hv1val]; exact hcontra))
        have hch := chosen_le_min x (fracVal (pyFrac (P0 + k * P1) (Q0 + k * Q1)))
          ((P1 : ℚ) / ((Q1 : ℤ) : ℚ))
          (((P0 + k * P1 : ℤ) : ℚ) / ((Q0 + k * Q1 : ℤ) : ℚ)) hv2x hxv1
          (Or.inl ⟨hv1val, le_of_lt (not_le.mp habs)⟩)
        exact le_trans hch (hstr q hq)

/-- For `0 < fps ≤ 2^32` the denominator ceiling
`int(min(2**32, 2**32/fps))` computed by `set_fps` is at least 1 (so
`limit_denominator` does not raise). -/
theorem setFpsMaxDen_pos (fps : ℚ) (h1 : 0 < fps) (h2 : fps ≤ 2 ^ 32) :
    1 ≤ setFpsMaxDen fps := by
  have hnum : (0 : ℤ) < fps.num := Rat.num_pos.mpr h1
  obtain ⟨hval, -, -, hpos, -⟩ :=
    pyFrac_spec ((2 : ℤ) ^ 32 * (fps.den : ℤ)) fps.num hnum
  have hkey : fps.num ≤ 2 ^ 32 * (fps.den : ℤ) := by
    have hdq : (0 : ℚ) < (fps.den : ℚ) := by exact_mod_cast fps.pos
    have h4 : (fps.num : ℚ) / (fps.den : ℚ) ≤ 2 ^ 32 := by
      rw [Rat.num_div_den]
      exact h2
    have h5 := (div_le_iff₀ hdq).mp h4
    have h6 : (fps.num : ℚ) ≤ ((2 ^ 32 * (fps.den : ℤ) : ℤ) : ℚ) := by
      push_cast
      linarith
    exact_mod_cast h6
  have hva : (1 : ℚ) ≤ fracVal (pyFrac ((2 : ℤ) ^ 32 * (fps.den : ℤ)) fps.num) := by
    rw [hval, le_div_iff₀ (by exact_mod_cast hnum)]
    have : ((fps.num : ℤ) : ℚ) ≤ ((2 ^ 32 * (fps.den : ℤ) : ℤ) : ℚ) := by
      exact_mod_cast hkey
    linarith
  have haa : (pyFrac ((2 : ℤ) ^ 32 * (fps.den : ℤ)) fps.num).2 ≤
      (pyFrac ((2 : ℤ) ^ 32 * (fps.den : ℤ)) fps.num).1 := by
    have hq2 : (0 : ℚ) < ((pyFrac ((2 : ℤ) ^ 32 * (fps.den : ℤ)) fps.num).2 : ℚ) := by
      exact_mod_cast hpos
    have := (one_le_div hq2).mp (by simpa [fracVal] using hva)
    exact_mod_cast this
  simp only [setFpsMaxDen]
  by_cases hc : (pyFrac ((2 : ℤ) ^ 32 * (fps.den : ℤ)) fps.num).1 <
      (2 : ℤ) ^ 32 * (pyFrac ((2 : ℤ) ^ 32 * (fps.den : ℤ)) fps.num).2
  · rw [if_pos hc, Int.tdiv_eq_ediv (by linarith) hpos.le]
    exact (Int.le_ediv_iff_mul_le hpos).mpr (by linarith)
  · rw [if_neg hc]
    norm_num

/-- Counterexample to claim C5 as stated: at the positive input
`fps31 = 30 + 2⁻³¹`, whose denominator `2³¹` fits a 32-bit unsigned bound,
the best approximation with denominator up to the largest 32-bit unsigned
value is `fps31` itself, so the claim requires the stored pair to be
`(2147483648, 64424509441)`; the code instead uses the far smaller ceiling
`int(min(2**32, 2**32/fps)) = 143165576` and stores `(1, 30)`. -/
theorem c5_counterexample :
    ¬ ∃ r : ℚ, setFps fps31 = .ok ⟨(r.den : ℤ), r.num⟩ ∧
        (r.den : ℤ) ≤ 2 ^ 32 - 1 ∧
        ∀ q : ℚ, (q.den : ℤ) ≤ 2 ^ 32 - 1 → |fps31 - r| ≤ |fps31 - q| := by
  rintro ⟨r, hstore, hden, hopt⟩
  have hd31 : ((fps31.den : ℤ)) ≤ 2 ^ 32 - 1 := by
    show ((2147483648 : ℕ) : ℤ) ≤ 2 ^ 32 - 1
    norm_num
  have h0 := hopt fps31 hd31
  have hr : r = fps31 := by
    rw [sub_self, abs_zero] at h0
    have h2 : fps31 - r = 0 := abs_eq_zero.mp (le_antisymm h0 (abs_nonneg _))
    linarith
  rw [hr] at hstore
  have hcomp : setFps fps31 = .ok ⟨1, 30⟩ := by decide
  rw [hcomp] at hstore
  exact absurd hstore (by decide)

/-- Claim C5 as amended: for every positive `fps` not exceeding `2^32` (so
that the ceiling is at least 1), `set_fps` computes a closest rational
approximation of `fps` among the rationals whose denominator does not
exceed the code's ceiling `int(min(2**32, 2**32/fps))`, and writes the
inverse rational into the time-per-frame field: the stored numerator is the
approximation's denominator and the stored denominator is the
approximation's numerator. -/
theorem c5_best_approximation (fps : ℚ) (h1 : 0 < fps) (h2 : fps ≤ 2 ^ 32) :
    ∃ r : ℚ, setFps fps = .ok ⟨(r.den : ℤ), r.num⟩ ∧
      (r.den : ℤ) ≤ setFpsMaxDen fps ∧
      ∀ q : ℚ, (q.den : ℤ) ≤ setFpsMaxDen fps → |fps - r| ≤ |fps - q| := by
  obtain ⟨p, hok, hnum, hden, hdenD, hopt⟩ :=
    limitDen_spec fps (setFpsMaxDen fps) (setFpsMaxDen_pos fps h1 h2) h1
  refine ⟨fracVal p, ?_, hdenD, hopt⟩
  simp only [setFps, if_neg h1.ne']
  rw [hok, ← hden, ← hnum]

/-- Witness for the amended C5 at `fps = 30`. -/
theorem c5_best_approximation_witness :
    (0 : ℚ) < 30 ∧ (30 : ℚ) ≤ 2 ^ 32 ∧
      ∃ r : ℚ, setFps 30 = .ok ⟨(r.den : ℤ), r.num⟩ ∧
        (r.den : ℤ) ≤ setFpsMaxDen 30 ∧
        ∀ q : ℚ, (q.den : ℤ) ≤ setFpsMaxDen 30 → |(30 : ℚ) - r| ≤ |(30 : ℚ) - q| :=
  ⟨by norm_num, by norm_num, c5_best_approximation 30 (by norm_num) (by norm_num)⟩

end V4l2py
